import Mathlib

set_option linter.unusedVariables false

/- Verification of the out-of-order sequence reconstruction and bounded-batch
cutting engine of the repository: the blockcutter Scheduler (batch cutter
sink) and the endorser ProposalOrderer (ordered dispatcher sink).

Embedding notes.  Wall-clock timestamps (pendingBatchStartTime) and the
write-only metrics sink (BlockFillDuration.Observe) are elided: they do not
influence any value, batch or state transition considered here.  Machine
integers: the Go int is modelled by Int (sequence counters never approach
2^63 in any run considered), Go uint32 byte and count values are modelled by
Nat reduced modulo 2^32 exactly where the Go code adds or converts uint32
values.  A Go panic is modelled by the result none.  A Go map from int to
envelope pointers is modelled by an association list with at most one entry
per key (insertion replaces), where a missing key reads as the zero value. -/

namespace Fabric

/-- Envelope models cb.Envelope: opaque payload and signature byte strings.
Bytes are modelled as natural numbers; only their count matters here. -/
structure Envelope where
  payload : List Nat
  signature : List Nat
deriving DecidableEq, Repr

/-- Zero value produced by reading a missing key from a Go map of envelope
pointers (a nil pointer). -/
def nilEnvelope : Envelope := { payload := [], signature := [] }

/-- Modelled from the spec: the function messageSizeBytes is not among the
given sources.  Per the data model section, a byte size is derived from the
item bytes, so the size of an envelope is the total number of its payload
and signature bytes, as a Go uint32. -/
def messageSizeBytes (e : Envelope) : Nat :=
  (e.payload.length + e.signature.length) % 2 ^ 32

/-- Derived byte size of a batch: the sum of the byte sizes of its items
(spec data model: a Batch carries items plus a derived totalBytes). -/
def batchTotalBytes (b : List Envelope) : Nat :=
  (b.map messageSizeBytes).sum

/-- Association-list model of the Go map from int sequence numbers to
envelopes. -/
abbrev EnvMap := List (Int × Envelope)

/-- Lookup in the envelope map. -/
def mapFind (m : EnvMap) (k : Int) : Option Envelope :=
  match m with
  | [] => none
  | (j, v) :: rest => if j = k then some v else mapFind rest k

/-- Deletion from the envelope map (Go delete).  The map is built with at
most one entry per key, so removing every entry under k is the Go
behavior. -/
def mapErase (m : EnvMap) (k : Int) : EnvMap :=
  match m with
  | [] => []
  | (j, v) :: rest => if j = k then mapErase rest k else (j, v) :: mapErase rest k

/-- Insertion into the envelope map (Go map assignment: replaces any previous
entry under the same key). -/
def mapInsert (m : EnvMap) (k : Int) (v : Envelope) : EnvMap :=
  (k, v) :: mapErase m k

/-- Integer interval [a, b) as a list, in increasing order. -/
def intRange (a b : Int) : List Int :=
  (List.range (b - a).toNat).map (fun (i : Nat) => a + (i : Int))

/-- Contents of the map over the interval [a, b), in sequence order, reading
a missing key as the zero value.  This is the batch built by the loop in
Scheduler.Cut, which appends the map entry at i for i = a, ..., b - 1. -/
def window (m : EnvMap) (a b : Int) : List Envelope :=
  (intRange a b).map (fun k => (mapFind m k).getD nilEnvelope)

/-- Auxiliary recursion deleting n consecutive keys starting at a. -/
def eraseRangeAux : Nat → Int → EnvMap → EnvMap
  | 0, _, m => m
  | n + 1, a, m => eraseRangeAux n (a + 1) (mapErase m a)

/-- Deletion of every key in the interval [a, b) from the map.  This is the
delete half of the loop in Scheduler.Cut.  Deleting key i never changes the
entries at the later keys the loop still reads, so reading the batch first
(window) and then deleting (eraseRange) is the same as the interleaved Go
loop. -/
def eraseRange (m : EnvMap) (a b : Int) : EnvMap :=
  eraseRangeAux (b - a).toNat a m

/-- BatchSize models orderer.BatchSize.  The absoluteMaxBytes field exists in
the proto message but is never read by the Scheduler. -/
structure BatchSize where
  maxMessageCount : Nat
  absoluteMaxBytes : Nat
  preferredMaxBytes : Nat
deriving DecidableEq, Repr

/-- Scheduler state (part_003): the pending envelope map, the start boundary
of the forming batch, the next expected sequence, and the accumulated byte
count of the forming batch (a Go uint32). -/
structure Scheduler where
  envelopes : EnvMap
  startSequence : Int
  nextSequence : Int
  batchSize : Nat
deriving DecidableEq, Repr

/-- NewScheduler constructs the initial state (part_003 lines 22-32). -/
def NewScheduler : Scheduler :=
  { envelopes := [], startSequence := 0, nextSequence := 0, batchSize := 0 }

/-- Cut finalizes the interval [startSequence, endSeq) into a batch
(part_003 lines 103-120).  The Go code panics when start >= end; the panic
is modelled by none. -/
def Scheduler.Cut (s : Scheduler) (endSeq : Int) : Option (List Envelope × Scheduler) :=
  if endSeq ≤ s.startSequence then
    none
  else
    some (window s.envelopes s.startSequence endSeq,
      { s with envelopes := eraseRange s.envelopes s.startSequence endSeq,
               startSequence := endSeq })

/-- Byte-threshold logic of one loop iteration in Scheduler.Schedule
(part_003 lines 53-88), applied to the state s1 whose nextSequence was
already advanced past the released entry.  Note that the Go code computes
messageSize from the msg argument of Schedule each iteration, never from the
released map entry.  A none result is the panic raised by Cut. -/
def stepBytes (bs : BatchSize) (msg : Envelope) (s1 : Scheduler) :
    Option (Scheduler × List (List Envelope)) :=
  if (s1.batchSize + messageSizeBytes msg) % 2 ^ 32 < bs.preferredMaxBytes then
    some ({ s1 with batchSize := (s1.batchSize + messageSizeBytes msg) % 2 ^ 32 }, [])
  else if bs.preferredMaxBytes < (s1.batchSize + messageSizeBytes msg) % 2 ^ 32 then
    if s1.nextSequence - s1.startSequence = 1 then
      match s1.Cut s1.nextSequence with
      | none => none
      | some (batch, s2) => some ({ s2 with batchSize := 0 }, [batch])
    else
      match s1.Cut (s1.nextSequence - 1) with
      | none => none
      | some (batch1, s2) =>
        if bs.preferredMaxBytes ≤ messageSizeBytes msg then
          match s2.Cut s2.nextSequence with
          | none => none
          | some (batch2, s3) => some ({ s3 with batchSize := 0 }, [batch1, batch2])
        else
          some ({ s2 with batchSize := messageSizeBytes msg }, [batch1])
  else
    match s1.Cut s1.nextSequence with
    | none => none
    | some (batch, s2) => some ({ s2 with batchSize := 0 }, [batch])

/-- Message-count check closing one loop iteration (part_003 lines 90-94):
if the number of entries accumulated since the last cut reached
maxMessageCount, cut everything accumulated so far. -/
def stepCount (bs : BatchSize) :
    Option (Scheduler × List (List Envelope)) →
    Option (Scheduler × List (List Envelope))
  | none => none
  | some (s2, nb) =>
    if bs.maxMessageCount ≤ ((s2.nextSequence - s2.startSequence) % (2 ^ 32 : Int)).toNat then
      match s2.Cut s2.nextSequence with
      | none => none
      | some (batch, s3) => some ({ s3 with batchSize := 0 }, nb ++ [batch])
    else
      some (s2, nb)

/-- One iteration of the release loop in Scheduler.Schedule (part_003 lines
45-95): the sequence counter advances past the released entry, then the byte
threshold logic and, afterwards, the message count check run. -/
def scheduleStep (bs : BatchSize) (msg : Envelope) (s : Scheduler) :
    Option (Scheduler × List (List Envelope)) :=
  stepCount bs (stepBytes bs msg { s with nextSequence := s.nextSequence + 1 })

/-- Release loop of Scheduler.Schedule: while the map holds the next expected
sequence, run one iteration.  The third list is an observation trace
recording, in order, the sequence number of every released entry; it is
ghost output and feeds no decision.  Fuel bounds the iteration count; the
caller supplies one unit more than the map size, which the loop, consuming
one distinct present key per iteration, can never exhaust. -/
def scheduleLoop (bs : BatchSize) (msg : Envelope) :
    Nat → Scheduler → List (List Envelope) → List Int →
    Option (Scheduler × List (List Envelope) × List Int)
  | 0, _, _, _ => none
  | fuel + 1, s, batches, trace =>
    if (mapFind s.envelopes s.nextSequence).isSome then
      match scheduleStep bs msg s with
      | none => none
      | some (s2, nb) =>
        scheduleLoop bs msg fuel s2 (batches ++ nb) (trace ++ [s.nextSequence])
    else
      some (s, batches, trace)

/-- Modelled from the spec: util.ParseCustomTXID is not among the given
sources.  The spec fixes only its shape: a collaborator mapping a transaction
identifier string to an integer sequence number together with a possible
parse error.  It is kept fully abstract; everything below is proved for an
arbitrary such mapping. -/
def ParseFn : Type := String → Int × Option String

/-- Schedule (part_003 lines 34-101): derive the sequence from the
transaction identifier, discarding the error; store the envelope; if it is
the next expected sequence, drain the contiguous prefix through the batch
threshold logic.  Returns the emitted batches, the pending flag, the new
state and the ghost release trace; none is a panic escaping from Cut. -/
def Scheduler.Schedule (s : Scheduler) (msg : Envelope) (txID : String)
    (batchSize : BatchSize) (parse : ParseFn) :
    Option (List (List Envelope) × Bool × Scheduler × List Int) :=
  let txSequence := (parse txID).1
  let s0 : Scheduler := { s with envelopes := mapInsert s.envelopes txSequence msg }
  if s0.nextSequence = txSequence then
    match scheduleLoop batchSize msg (s0.envelopes.length + 1) s0 [] [] with
    | none => none
    | some (s1, batches, trace) =>
      some (batches, decide (0 < s1.envelopes.length), s1, trace)
  else
    some ([], decide (0 < s0.envelopes.length), s0, [])

/-- Fold of Schedule over a list of pushes with a fixed limits argument,
collecting every emitted batch and the release traces in order. -/
def scheduleRun (parse : ParseFn) (bs : BatchSize) :
    Scheduler → List (Envelope × String) →
    Option (Scheduler × List (List Envelope) × List Int)
  | s, [] => some (s, [], [])
  | s, (msg, txID) :: rest =>
    match s.Schedule msg txID bs parse with
    | none => none
    | some (batches, _, s1, trace) =>
      match scheduleRun parse bs s1 rest with
      | none => none
      | some (s2, moreBatches, moreTrace) =>
        some (s2, batches ++ moreBatches, trace ++ moreTrace)

/-- Sequence numbers a list of pushes derives through the parse function. -/
def pushSeqs (parse : ParseFn) (pushes : List (Envelope × String)) : List Int :=
  pushes.map (fun p => (parse p.2).1)

/-- Association list recording, for a list of pushes, which envelope was
scheduled under which derived sequence number. -/
def pushedOf (parse : ParseFn) (pushes : List (Envelope × String)) : EnvMap :=
  pushes.map (fun p => ((parse p.2).1, p.1))

/-- Concrete parse function used to evaluate runs: the sequence is the length
of the identifier and no error is reported. -/
def lenParse : ParseFn := fun t => ((t.length : Int), none)

/-- ChannelHeader carries the transaction identifier of a proposal. -/
structure ChannelHeader where
  txId : String
deriving DecidableEq, Repr

/-- UnpackedProposal: only the channel header field is read by the code under
study. -/
structure UnpackedProposal where
  channelHeader : ChannelHeader
deriving DecidableEq, Repr

/-- UnpackedProposalWrapper (plugin_mapper.go lines 100-106): a proposal
tagged with its derived sequence number.  The mutable response and error
slots and the rendezvous channel are elided: the ordering engine never reads
them. -/
structure UnpackedProposalWrapper where
  unpackedProposal : UnpackedProposal
  Sequence : Int
deriving DecidableEq, Repr

/-- NewUnpackedProposalWrapper (plugin_mapper.go lines 108-118): derives the
sequence from the transaction identifier of the channel header, discarding
the parse error. -/
def NewUnpackedProposalWrapper (parse : ParseFn) (up : UnpackedProposal) :
    UnpackedProposalWrapper :=
  { unpackedProposal := up, Sequence := (parse up.channelHeader.txId).1 }

/-- Modelled from the spec: the Go container slash heap package is standard
library code outside the given sources; its contract is that Pop removes and
returns a least element under the Less method of PriorityQueue, which orders
wrappers by Sequence, and that the element at index 0 is such a least
element.  The queue is therefore modelled as a multiset of wrappers with a
minimum extraction operation; pqPopMin returns a wrapper of least Sequence
together with the remaining queue. -/
def pqPopMin :
    List UnpackedProposalWrapper →
    Option (UnpackedProposalWrapper × List UnpackedProposalWrapper)
  | [] => none
  | x :: xs =>
    match pqPopMin xs with
    | none => some (x, [])
    | some (m, rest) =>
      if x.Sequence ≤ m.Sequence then some (x, xs) else some (m, x :: rest)

/-- ProposalOrderer state (plugin_mapper.go lines 47-53): the next expected
sequence, the priority queue of pending wrappers, and the contents of the
process channel, namely the wrappers handed to the consumer so far, in
order. -/
structure ProposalOrderer where
  nextSequence : Int
  queue : List UnpackedProposalWrapper
  processCh : List UnpackedProposalWrapper
deriving DecidableEq, Repr

/-- NewProposalOrderer initial state (plugin_mapper.go lines 55-70). -/
def NewProposalOrderer : ProposalOrderer :=
  { nextSequence := 0, queue := [], processCh := [] }

/-- Push (plugin_mapper.go lines 87-93): insert the wrapper into the heap and
signal the worker. -/
def ProposalOrderer.Push (po : ProposalOrderer) (upw : UnpackedProposalWrapper) :
    ProposalOrderer :=
  { po with queue := po.queue ++ [upw] }

/-- Drain loop body of SendProposalsInOrder (plugin_mapper.go lines 77-81):
while the queue is nonempty and its top has the next expected sequence, pop
it, advance the sequence, and forward it to the process channel.  Fuel
bounds the iterations; the caller supplies the queue length, which suffices
because every iteration removes one element. -/
def sendDrain : Nat → ProposalOrderer → ProposalOrderer
  | 0, po => po
  | fuel + 1, po =>
    match pqPopMin po.queue with
    | none => po
    | some (top, rest) =>
      if top.Sequence = po.nextSequence then
        sendDrain fuel
          { nextSequence := po.nextSequence + 1,
            queue := rest,
            processCh := po.processCh ++ [top] }
      else po

/-- Handling of one signal by the SendProposalsInOrder worker. -/
def ProposalOrderer.trySendStep (po : ProposalOrderer) : ProposalOrderer :=
  sendDrain po.queue.length po

/-- Events of a dispatcher history: a producer Push, or the worker taking a
signal from trySendCh and draining. -/
inductive POOp where
  | push (upw : UnpackedProposalWrapper)
  | trySend
deriving DecidableEq, Repr

/-- Interleaved execution of pushes and worker drains. -/
def poRun : ProposalOrderer → List POOp → ProposalOrderer
  | po, [] => po
  | po, POOp.push upw :: rest => poRun (po.Push upw) rest
  | po, POOp.trySend :: rest => poRun po.trySendStep rest

/-- Wrappers pushed during a history, in push order. -/
def opsPushes : List POOp → List UnpackedProposalWrapper
  | [] => []
  | POOp.push upw :: rest => upw :: opsPushes rest
  | POOp.trySend :: rest => opsPushes rest

/- Basic lemmas about the map, interval and window operations. -/

theorem mapFind_nil (k : Int) : mapFind [] k = none := rfl

theorem mapFind_mapErase (m : EnvMap) (k j : Int) :
    mapFind (mapErase m k) j = if k = j then none else mapFind m j := by
  induction m with
  | nil =>
    simp only [mapErase, mapFind]
    split <;> rfl
  | cons p rest ih =>
    obtain ⟨a, v⟩ := p
    by_cases hak : a = k
    · subst hak
      rw [show mapErase ((a, v) :: rest) a = mapErase rest a by simp [mapErase], ih]
      by_cases haj : a = j
      · subst haj
        simp
      · simp [mapFind, haj]
    · rw [show mapErase ((a, v) :: rest) k = (a, v) :: mapErase rest k by simp [mapErase, hak]]
      by_cases haj : a = j
      · subst haj
        simp [mapFind, show ¬ k = a from fun h => hak h.symm]
      · simp only [mapFind, haj, if_false]
        exact ih

theorem mapFind_mapInsert (m : EnvMap) (k : Int) (v : Envelope) (j : Int) :
    mapFind (mapInsert m k v) j = if k = j then some v else mapFind m j := by
  by_cases hkj : k = j
  · subst hkj; simp [mapInsert, mapFind]
  · simp [mapInsert, mapFind, hkj, mapFind_mapErase]

theorem mapFind_append_left {m1 : EnvMap} (m2 : EnvMap) {k : Int} {v : Envelope}
    (h : mapFind m1 k = some v) : mapFind (m1 ++ m2) k = some v := by
  induction m1 with
  | nil => simp [mapFind] at h
  | cons p rest ih =>
    obtain ⟨a, w⟩ := p
    simp only [mapFind, List.cons_append] at *
    by_cases hak : a = k
    · simpa [hak] using h
    · simp only [hak, if_false] at h ⊢
      exact ih h

theorem mapFind_append_right {m1 : EnvMap} (m2 : EnvMap) {k : Int}
    (h : mapFind m1 k = none) : mapFind (m1 ++ m2) k = mapFind m2 k := by
  induction m1 with
  | nil => simp
  | cons p rest ih =>
    obtain ⟨a, w⟩ := p
    simp only [mapFind, List.cons_append] at *
    by_cases hak : a = k
    · simp [hak] at h
    · simp only [hak, if_false] at h ⊢
      exact ih h

theorem eraseRangeAux_find (n : Nat) (a : Int) (m : EnvMap) (k : Int) :
    mapFind (eraseRangeAux n a m) k =
      if a ≤ k ∧ k < a + n then none else mapFind m k := by
  induction n generalizing a m with
  | zero =>
    simp only [eraseRangeAux, Nat.cast_zero, add_zero]
    rw [if_neg (by omega)]
  | succ n ih =>
    simp only [eraseRangeAux]
    rw [ih]
    rw [mapFind_mapErase]
    by_cases h1 : a + 1 ≤ k ∧ k < a + 1 + n
    · rw [if_pos h1, if_pos (by push_cast; omega)]
    · rw [if_neg h1]
      by_cases h2 : a = k
      · rw [if_pos h2, if_pos (by push_cast; omega)]
      · rw [if_neg h2, if_neg (by push_cast; omega)]

theorem mapFind_eraseRange (m : EnvMap) (a b k : Int) :
    mapFind (eraseRange m a b) k = if a ≤ k ∧ k < b then none else mapFind m k := by
  unfold eraseRange
  rw [eraseRangeAux_find]
  by_cases h : a ≤ k ∧ k < b
  · rw [if_pos h, if_pos (by omega)]
  · rw [if_neg h, if_neg (by omega)]

theorem intRange_eq_nil {a b : Int} (h : b ≤ a) : intRange a b = [] := by
  unfold intRange
  rw [show (b - a).toNat = 0 by omega]
  rfl

theorem intRange_cons {a b : Int} (h : a < b) :
    intRange a b = a :: intRange (a + 1) b := by
  unfold intRange
  rw [show (b - a).toNat = (b - (a + 1)).toNat + 1 by omega, List.range_succ_eq_map]
  simp only [List.map_cons, Nat.cast_zero, add_zero, List.map_map]
  congr 1
  apply List.map_congr_left
  intro i _
  simp only [Function.comp_apply, Nat.cast_succ]
  omega

theorem intRange_snoc {a b : Int} (h : a ≤ b) :
    intRange a (b + 1) = intRange a b ++ [b] := by
  unfold intRange
  rw [show (b + 1 - a).toNat = (b - a).toNat + 1 by omega, List.range_succ]
  simp only [List.map_append, List.map_cons, List.map_nil]
  congr 2
  omega

theorem mem_intRange {a b k : Int} : k ∈ intRange a b ↔ a ≤ k ∧ k < b := by
  unfold intRange
  simp only [List.mem_map, List.mem_range]
  constructor
  · rintro ⟨i, hi, rfl⟩
    omega
  · rintro ⟨h1, h2⟩
    exact ⟨(k - a).toNat, by omega, by omega⟩

theorem intRange_append {a b c : Int} (h1 : a ≤ b) (h2 : b ≤ c) :
    intRange a b ++ intRange b c = intRange a c := by
  obtain ⟨n, hn⟩ : ∃ n : Nat, b - a = n := ⟨(b - a).toNat, by omega⟩
  induction n generalizing a with
  | zero =>
    have : a = b := by omega
    subst this
    rw [intRange_eq_nil le_rfl, List.nil_append]
  | succ n ih =>
    have hab : a < b := by omega
    rw [intRange_cons hab, intRange_cons (show a < c by omega), List.cons_append]
    congr 1
    exact ih (by omega) (by omega)

theorem intRange_length (a b : Int) : (intRange a b).length = (b - a).toNat := by
  unfold intRange
  simp

theorem intRange_nodup (a b : Int) : (intRange a b).Nodup := by
  unfold intRange
  refine List.Nodup.map ?_ (List.nodup_range _)
  intro i j hij
  simp only at hij
  omega

theorem window_eq_nil {m : EnvMap} {a b : Int} (h : b ≤ a) : window m a b = [] := by
  unfold window
  rw [intRange_eq_nil h]
  rfl

theorem window_cons {m : EnvMap} {a b : Int} (h : a < b) :
    window m a b = (mapFind m a).getD nilEnvelope :: window m (a + 1) b := by
  unfold window
  rw [intRange_cons h, List.map_cons]

theorem window_append {m : EnvMap} {a b c : Int} (h1 : a ≤ b) (h2 : b ≤ c) :
    window m a b ++ window m b c = window m a c := by
  unfold window
  rw [← List.map_append, intRange_append h1 h2]

theorem window_congr {m1 m2 : EnvMap} {a b : Int}
    (h : ∀ k, a ≤ k → k < b → mapFind m1 k = mapFind m2 k) :
    window m1 a b = window m2 a b := by
  unfold window
  apply List.map_congr_left
  intro k hk
  rw [mem_intRange] at hk
  rw [h k hk.1 hk.2]

theorem window_length (m : EnvMap) (a b : Int) :
    (window m a b).length = (b - a).toNat := by
  unfold window
  rw [List.length_map, intRange_length]

/- Invariants and one-step analysis of the Scheduler. -/

/-- State invariant of the Scheduler, maintained by Schedule: the start
boundary is nonnegative and at most the next expected sequence, every key of
the forming-batch interval is present in the map, and the accumulated byte
counter is a uint32 value. -/
def StateInv (s : Scheduler) : Prop :=
  0 ≤ s.startSequence ∧ s.startSequence ≤ s.nextSequence ∧
    (∀ k ∈ intRange s.startSequence s.nextSequence, (mapFind s.envelopes k).isSome) ∧
    s.batchSize < 2 ^ 32

instance (s : Scheduler) : Decidable (StateInv s) := by
  unfold StateInv
  infer_instance

theorem Cut_eq_none {s : Scheduler} {endSeq : Int} (h : endSeq ≤ s.startSequence) :
    s.Cut endSeq = none := by
  unfold Scheduler.Cut
  rw [if_pos h]

theorem Cut_eq_some {s : Scheduler} {endSeq : Int} (h : s.startSequence < endSeq) :
    s.Cut endSeq = some (window s.envelopes s.startSequence endSeq,
      { s with envelopes := eraseRange s.envelopes s.startSequence endSeq,
               startSequence := endSeq }) := by
  unfold Scheduler.Cut
  rw [if_neg (by omega)]

/-- Conclusions of the byte-threshold phase taking the state s1 (sequence
already advanced) to s2 while emitting the batches nb: the sequence counter
is untouched, the start boundary moves forward within the released interval,
exactly the cut interval is deleted from the map, the emitted batches
concatenate to the window of the cut interval, and every emitted batch is no
longer than the interval accumulated so far. -/
def BytesOk (s1 s2 : Scheduler) (nb : List (List Envelope)) : Prop :=
  s2.nextSequence = s1.nextSequence ∧
  s1.startSequence ≤ s2.startSequence ∧
  s2.startSequence ≤ s2.nextSequence ∧
  s2.batchSize < 2 ^ 32 ∧
  (∀ k, mapFind s2.envelopes k =
    if s1.startSequence ≤ k ∧ k < s2.startSequence then none
    else mapFind s1.envelopes k) ∧
  nb.flatten = window s1.envelopes s1.startSequence s2.startSequence ∧
  (∀ b ∈ nb, b.length ≤ (s1.nextSequence - s1.startSequence).toNat)

theorem stepBytes_spec {bs : BatchSize} {msg : Envelope} {s1 s2 : Scheduler}
    {nb : List (List Envelope)}
    (hst : s1.startSequence < s1.nextSequence)
    (hbsz : s1.batchSize < 2 ^ 32)
    (h : stepBytes bs msg s1 = some (s2, nb)) :
    BytesOk s1 s2 nb := by
  unfold stepBytes at h
  split at h
  · -- accumulate: newBatchSize below the preferred threshold
    rename_i hlt
    simp only [Option.some.injEq, Prod.mk.injEq] at h
    obtain ⟨h1, h2⟩ := h
    subst h1
    subst h2
    unfold BytesOk
    dsimp only
    refine ⟨rfl, le_refl _, le_of_lt hst, Nat.mod_lt _ (by norm_num), ?_, ?_, ?_⟩
    · intro k
      rw [if_neg (by omega)]
    · rw [window_eq_nil (le_refl _)]
      rfl
    · intro b hb
      simp at hb
  · rename_i hge
    split at h
    · rename_i hgt
      split at h
      · -- overflow with a single accumulated envelope: cut it alone
        rename_i hone
        split at h
        · exact Option.noConfusion h
        · rename_i batch s2x heq
          rw [Cut_eq_some hst] at heq
          simp only [Option.some.injEq, Prod.mk.injEq] at heq
          obtain ⟨hb1, hb2⟩ := heq
          subst hb1
          subst hb2
          simp only [Option.some.injEq, Prod.mk.injEq] at h
          obtain ⟨h1, h2⟩ := h
          subst h1
          subst h2
          unfold BytesOk
          dsimp only
          refine ⟨rfl, le_of_lt hst, le_refl _, by norm_num, ?_, ?_, ?_⟩
          · intro k
            exact mapFind_eraseRange _ _ _ _
          · simp
          · intro b hb
            simp only [List.mem_singleton] at hb
            subst hb
            rw [window_length]
      · -- overflow with several accumulated envelopes: cut those before the
        -- current one, then possibly the current one alone
        rename_i hone
        have hst2 : s1.startSequence < s1.nextSequence - 1 := by omega
        split at h
        · exact Option.noConfusion h
        · rename_i batch1 s2x heq
          rw [Cut_eq_some hst2] at heq
          simp only [Option.some.injEq, Prod.mk.injEq] at heq
          obtain ⟨hb1, hb2⟩ := heq
          subst hb1
          have e1 : s2x.startSequence = s1.nextSequence - 1 := by rw [← hb2]
          have e2 : s2x.nextSequence = s1.nextSequence := by rw [← hb2]
          have e3 : s2x.envelopes =
              eraseRange s1.envelopes s1.startSequence (s1.nextSequence - 1) := by
            rw [← hb2]
          split at h
          · -- the current envelope alone reaches the threshold: cut it too
            rename_i hbig
            split at h
            · rename_i heq2
              rw [Cut_eq_some (show s2x.startSequence < s2x.nextSequence by omega)] at heq2
              exact Option.noConfusion heq2
            · rename_i batch2 s3x heq2
              rw [Cut_eq_some (show s2x.startSequence < s2x.nextSequence by omega)] at heq2
              simp only [Option.some.injEq, Prod.mk.injEq] at heq2
              obtain ⟨hc1, hc2⟩ := heq2
              subst hc1
              have f1 : s3x.startSequence = s1.nextSequence := by rw [← hc2]; exact e2
              have f2 : s3x.nextSequence = s1.nextSequence := by rw [← hc2]; exact e2
              have f3 : s3x.envelopes =
                  eraseRange s2x.envelopes s2x.startSequence s2x.nextSequence := by
                rw [← hc2]
              simp only [Option.some.injEq, Prod.mk.injEq] at h
              obtain ⟨h1, h2⟩ := h
              subst h1
              subst h2
              unfold BytesOk
              dsimp only
              refine ⟨f2, by omega, by omega, by norm_num, ?_, ?_, ?_⟩
              · intro k
                rw [f3, mapFind_eraseRange, e3, mapFind_eraseRange, e1, e2, f1]
                by_cases hk1 : s1.nextSequence - 1 ≤ k ∧ k < s1.nextSequence
                · rw [if_pos hk1, if_pos (by omega)]
                · rw [if_neg hk1]
                  by_cases hk2 : s1.startSequence ≤ k ∧ k < s1.nextSequence - 1
                  · rw [if_pos hk2, if_pos (by omega)]
                  · rw [if_neg hk2, if_neg (by omega)]
              · have hw : window s2x.envelopes s2x.startSequence s2x.nextSequence =
                    window s1.envelopes (s1.nextSequence - 1) s1.nextSequence := by
                  rw [e1, e2, e3]
                  apply window_congr
                  intro k hk1 hk2
                  rw [mapFind_eraseRange, if_neg (by omega)]
                rw [f1]
                simp only [List.flatten_cons, List.flatten_nil, List.append_nil]
                rw [hw, window_append (by omega) (by omega)]
              · intro b hb
                simp only [List.mem_cons, List.mem_singleton] at hb
                rcases hb with rfl | rfl | hb
                · rw [window_length]
                  omega
                · rw [window_length, e1, e2]
                  omega
                · simp at hb
          · -- the current envelope stays as the new forming batch
            rename_i hsmall
            simp only [Option.some.injEq, Prod.mk.injEq] at h
            obtain ⟨h1, h2⟩ := h
            subst h1
            subst h2
            unfold BytesOk
            dsimp only
            refine ⟨e2, by omega, by omega, ?_, ?_, ?_, ?_⟩
            · exact Nat.mod_lt _ (by norm_num)
            · intro k
              rw [e3, mapFind_eraseRange, e1]
            · simp only [List.flatten_cons, List.flatten_nil, List.append_nil]
              rw [e1]
            · intro b hb
              simp only [List.mem_singleton] at hb
              subst hb
              rw [window_length]
              omega
    · -- newBatchSize equals the preferred threshold exactly: cut everything
      rename_i hgt
      split at h
      · exact Option.noConfusion h
      · rename_i batch s2x heq
        rw [Cut_eq_some hst] at heq
        simp only [Option.some.injEq, Prod.mk.injEq] at heq
        obtain ⟨hb1, hb2⟩ := heq
        subst hb1
        subst hb2
        simp only [Option.some.injEq, Prod.mk.injEq] at h
        obtain ⟨h1, h2⟩ := h
        subst h1
        subst h2
        unfold BytesOk
        dsimp only
        refine ⟨rfl, le_of_lt hst, le_refl _, by norm_num, ?_, ?_, ?_⟩
        · intro k
          exact mapFind_eraseRange _ _ _ _
        · simp
        · intro b hb
          simp only [List.mem_singleton] at hb
          subst hb
          rw [window_length]

/-- Conclusions of one full release-loop iteration, taking the state s
(before the sequence advance) to s3 while emitting the batches nb. -/
def StepOk (bs : BatchSize) (s s3 : Scheduler) (nb : List (List Envelope)) : Prop :=
  s3.nextSequence = s.nextSequence + 1 ∧
  s.startSequence ≤ s3.startSequence ∧
  s3.startSequence ≤ s3.nextSequence ∧
  s3.batchSize < 2 ^ 32 ∧
  (∀ k, mapFind s3.envelopes k =
    if s.startSequence ≤ k ∧ k < s3.startSequence then none
    else mapFind s.envelopes k) ∧
  nb.flatten = window s.envelopes s.startSequence s3.startSequence ∧
  (∀ b ∈ nb, b.length ≤ (s.nextSequence + 1 - s.startSequence).toNat) ∧
  (1 ≤ bs.maxMessageCount → (bs.maxMessageCount : Int) < 2 ^ 32 →
    s.nextSequence - s.startSequence < (bs.maxMessageCount : Int) →
    s3.nextSequence - s3.startSequence < (bs.maxMessageCount : Int))

theorem scheduleStep_spec {bs : BatchSize} {msg : Envelope} {s s3 : Scheduler}
    {nb : List (List Envelope)}
    (hinv : StateInv s)
    (h : scheduleStep bs msg s = some (s3, nb)) :
    StepOk bs s s3 nb := by
  obtain ⟨hi0, hi1, hi2, hi3⟩ := hinv
  unfold scheduleStep at h
  cases hby : stepBytes bs msg { s with nextSequence := s.nextSequence + 1 } with
  | none =>
    rw [hby] at h
    exact Option.noConfusion h
  | some p =>
    obtain ⟨s2, nb2⟩ := p
    rw [hby] at h
    have hB : BytesOk { s with nextSequence := s.nextSequence + 1 } s2 nb2 :=
      stepBytes_spec (by dsimp only; omega) hi3 hby
    obtain ⟨b1, b2, b3, b4, b5, b6, b7⟩ := hB
    dsimp only at b1 b2 b5 b6 b7
    simp only [stepCount] at h
    split at h
    · rename_i hc
      split at h
      · exact Option.noConfusion h
      · rename_i batch s3x heq
        unfold Scheduler.Cut at heq
        split at heq
        · exact Option.noConfusion heq
        · rename_i hlt2
          simp only [Option.some.injEq, Prod.mk.injEq] at heq
          obtain ⟨hq1, hq2⟩ := heq
          subst hq1
          have g1 : s3x.startSequence = s2.nextSequence := by rw [← hq2]
          have g2 : s3x.nextSequence = s2.nextSequence := by rw [← hq2]
          have g3 : s3x.envelopes =
              eraseRange s2.envelopes s2.startSequence s2.nextSequence := by rw [← hq2]
          simp only [Option.some.injEq, Prod.mk.injEq] at h
          obtain ⟨h1, h2⟩ := h
          subst h1
          subst h2
          unfold StepOk
          dsimp only
          rw [g1, g2, g3]
          refine ⟨b1, by omega, le_refl _, by norm_num, ?_, ?_, ?_, ?_⟩
          · intro k
            rw [mapFind_eraseRange, b5 k]
            by_cases c1 : s2.startSequence ≤ k ∧ k < s2.nextSequence
            · rw [if_pos c1, if_pos (by omega)]
            · rw [if_neg c1]
              by_cases c2 : s.startSequence ≤ k ∧ k < s2.startSequence
              · rw [if_pos c2, if_pos (by omega)]
              · rw [if_neg c2, if_neg (by omega)]
          · rw [List.flatten_append, b6]
            simp only [List.flatten_cons, List.flatten_nil, List.append_nil]
            have hw : window s2.envelopes s2.startSequence s2.nextSequence =
                window s.envelopes s2.startSequence s2.nextSequence := by
              apply window_congr
              intro k hk1 hk2
              rw [b5 k, if_neg (by omega)]
            rw [hw, window_append b2 b3]
          · intro b hb
            rw [List.mem_append] at hb
            rcases hb with hb | hb
            · exact b7 b hb
            · simp only [List.mem_singleton] at hb
              subst hb
              rw [window_length]
              omega
          · intro hm1 hm2 hcnt
            omega
    · rename_i hc
      simp only [Option.some.injEq, Prod.mk.injEq] at h
      obtain ⟨h1, h2⟩ := h
      subst h1
      subst h2
      unfold StepOk
      refine ⟨b1, by omega, b3, b4, ?_, b6, b7, ?_⟩
      · intro k
        rw [b5 k]
      · intro hm1 hm2 hcnt
        omega

/-- Conclusions of a complete drain from the state s to s4 while emitting
the batches nb and releasing the trace ntr: the invariant is maintained, the
counters advance, the drain stops at the first gap, exactly the cut prefix
is deleted from the map, every released key was present, the emitted batches
concatenate to the window of the cut interval, the trace is the released
interval in increasing order, and, under a positive uint32 count limit, no
batch exceeds the count limit. -/
def DrainOk (bs : BatchSize) (s s4 : Scheduler) (nb : List (List Envelope))
    (ntr : List Int) : Prop :=
  StateInv s4 ∧
  s.startSequence ≤ s4.startSequence ∧
  s.nextSequence ≤ s4.nextSequence ∧
  mapFind s4.envelopes s4.nextSequence = none ∧
  (∀ k, mapFind s4.envelopes k =
    if s.startSequence ≤ k ∧ k < s4.startSequence then none
    else mapFind s.envelopes k) ∧
  (∀ k, s.nextSequence ≤ k → k < s4.nextSequence → (mapFind s.envelopes k).isSome) ∧
  nb.flatten = window s.envelopes s.startSequence s4.startSequence ∧
  ntr = intRange s.nextSequence s4.nextSequence ∧
  (1 ≤ bs.maxMessageCount → (bs.maxMessageCount : Int) < 2 ^ 32 →
    s.nextSequence - s.startSequence < (bs.maxMessageCount : Int) →
    ((∀ b ∈ nb, b.length ≤ bs.maxMessageCount) ∧
     s4.nextSequence - s4.startSequence < (bs.maxMessageCount : Int)))

theorem scheduleLoop_spec {bs : BatchSize} {msg : Envelope} :
    ∀ (fuel : Nat) (s : Scheduler) (batches : List (List Envelope)) (trace : List Int)
      (s4 : Scheduler) (out : List (List Envelope)) (tr : List Int),
      StateInv s →
      scheduleLoop bs msg fuel s batches trace = some (s4, out, tr) →
      ∃ nb ntr, out = batches ++ nb ∧ tr = trace ++ ntr ∧ DrainOk bs s s4 nb ntr := by
  intro fuel
  induction fuel with
  | zero =>
    intro s batches trace s4 out tr hinv h
    exact Option.noConfusion h
  | succ fuel ih =>
    intro s batches trace s4 out tr hinv h
    simp only [scheduleLoop] at h
    split at h
    · rename_i hpres
      split at h
      · exact Option.noConfusion h
      · rename_i s2 nb2 hstep
        have hS : StepOk bs s s2 nb2 := scheduleStep_spec hinv hstep
        obtain ⟨p1, p2, p3, p4, p5, p6, p7, p8⟩ := hS
        obtain ⟨hi0, hi1, hi2, hi3⟩ := hinv
        rw [Option.isSome_iff_exists] at hpres
        obtain ⟨v0, hv0⟩ := hpres
        have hinv2 : StateInv s2 := by
          refine ⟨by omega, by omega, ?_, p4⟩
          intro k hk
          rw [mem_intRange] at hk
          rw [p5 k, if_neg (by omega)]
          by_cases hkn : k = s.nextSequence
          · subst hkn
            rw [hv0]
            rfl
          · exact hi2 k (by rw [mem_intRange]; omega)
        obtain ⟨nb3, ntr3, hout, htr, hD⟩ :=
          ih s2 (batches ++ nb2) (trace ++ [s.nextSequence]) s4 out tr hinv2 h
        obtain ⟨d1, d2, d3, d4, d5, d6, d7, d8, d9⟩ := hD
        refine ⟨nb2 ++ nb3, s.nextSequence :: ntr3, ?_, ?_, ?_⟩
        · rw [hout, List.append_assoc]
        · rw [htr, List.append_assoc]
          rfl
        · refine ⟨d1, by omega, by omega, d4, ?_, ?_, ?_, ?_, ?_⟩
          · intro k
            rw [d5 k]
            by_cases c1 : s2.startSequence ≤ k ∧ k < s4.startSequence
            · rw [if_pos c1, if_pos (by omega)]
            · rw [if_neg c1, p5 k]
              by_cases c2 : s.startSequence ≤ k ∧ k < s2.startSequence
              · rw [if_pos c2, if_pos (by omega)]
              · rw [if_neg c2, if_neg (by omega)]
          · intro k hk1 hk2
            by_cases hkn : k = s.nextSequence
            · subst hkn
              rw [hv0]
              rfl
            · have hk3 : (mapFind s2.envelopes k).isSome := d6 k (by omega) hk2
              rw [p5 k] at hk3
              by_cases c2 : s.startSequence ≤ k ∧ k < s2.startSequence
              · rw [if_pos c2] at hk3
                exact absurd hk3 (by simp)
              · rw [if_neg c2] at hk3
                exact hk3
          · rw [List.flatten_append, p6, d7]
            have hw : window s2.envelopes s2.startSequence s4.startSequence =
                window s.envelopes s2.startSequence s4.startSequence := by
              apply window_congr
              intro k hk1 hk2
              rw [p5 k, if_neg (by omega)]
            rw [hw, window_append p2 d2]
          · rw [d8, p1]
            rw [← intRange_cons (by omega)]
          · intro hm1 hm2 hcnt
            have hcnt2 : s2.nextSequence - s2.startSequence < (bs.maxMessageCount : Int) :=
              p8 hm1 hm2 hcnt
            obtain ⟨hlen3, hcnt4⟩ := d9 hm1 hm2 hcnt2
            refine ⟨?_, hcnt4⟩
            intro b hb
            rw [List.mem_append] at hb
            rcases hb with hb | hb
            · have := p7 b hb
              omega
            · exact hlen3 b hb
    · rename_i hgap
      simp only [Option.some.injEq, Prod.mk.injEq] at h
      obtain ⟨h1, h2, h3⟩ := h
      subst h1
      subst h2
      subst h3
      refine ⟨[], [], by simp, by simp, ?_⟩
      refine ⟨hinv, le_refl _, le_refl _, ?_, ?_, ?_, ?_, ?_, ?_⟩
      · rw [Option.not_isSome_iff_eq_none] at hgap
        exact hgap
      · intro k
        rw [if_neg (by omega)]
      · intro k hk1 hk2
        omega
      · rw [window_eq_nil (le_refl _)]
        rfl
      · rw [intRange_eq_nil (le_refl _)]
      · intro hm1 hm2 hcnt
        exact ⟨by intro b hb; simp at hb, hcnt⟩

theorem mapFind_append_single {pushed : EnvMap} {t : Int} {msg : Envelope}
    (htn : mapFind pushed t = none) (k : Int) :
    mapFind (pushed ++ [(t, msg)]) k = if k = t then some msg else mapFind pushed k := by
  by_cases hk : k = t
  · subst hk
    rw [mapFind_append_right _ htn, if_pos rfl]
    simp [mapFind]
  · rw [if_neg hk]
    cases hf : mapFind pushed k with
    | none =>
      rw [mapFind_append_right _ hf]
      simp only [mapFind]
      rw [if_neg (fun hh => hk hh.symm)]
    | some v =>
      rw [mapFind_append_left _ hf]

/-- Run invariant tying a reachable Scheduler state to the association list
pushed of all (sequence, envelope) pairs scheduled so far, assuming distinct
sequences: the state invariant holds, the pending map holds exactly the
pushed entries at or past the start boundary, every sequence below the next
expected one was pushed, and the next expected sequence was not pushed. -/
def RunInv (pushed : EnvMap) (s : Scheduler) : Prop :=
  StateInv s ∧
  (∀ k, mapFind s.envelopes k =
    if k < s.startSequence then none else mapFind pushed k) ∧
  (∀ k, 0 ≤ k → k < s.nextSequence → (mapFind pushed k).isSome) ∧
  mapFind s.envelopes s.nextSequence = none

theorem RunInv_init : RunInv [] NewScheduler := by
  have h1 : NewScheduler.startSequence = 0 := rfl
  have h2 : NewScheduler.nextSequence = 0 := rfl
  refine ⟨⟨by omega, by omega, ?_, ?_⟩, ?_, ?_, rfl⟩
  · intro k hk
    rw [mem_intRange] at hk
    omega
  · show (0 : Nat) < 2 ^ 32
    norm_num
  · intro k
    split <;> rfl
  · intro k hk1 hk2
    omega

theorem Schedule_spec {parse : ParseFn} {bs : BatchSize} {s s5 : Scheduler}
    {msg : Envelope} {txID : String} {pushed : EnvMap}
    {batches : List (List Envelope)} {pending : Bool} {trace : List Int}
    (hR : RunInv pushed s)
    (ht0 : 0 ≤ (parse txID).1)
    (htn : mapFind pushed (parse txID).1 = none)
    (h : s.Schedule msg txID bs parse = some (batches, pending, s5, trace)) :
    RunInv (pushed ++ [((parse txID).1, msg)]) s5 ∧
    s.startSequence ≤ s5.startSequence ∧
    s.nextSequence ≤ s5.nextSequence ∧
    (∀ k, s.startSequence ≤ k → k < s5.startSequence →
      (mapFind (pushed ++ [((parse txID).1, msg)]) k).isSome) ∧
    batches.flatten =
      window (pushed ++ [((parse txID).1, msg)]) s.startSequence s5.startSequence ∧
    trace = intRange s.nextSequence s5.nextSequence ∧
    (1 ≤ bs.maxMessageCount → (bs.maxMessageCount : Int) < 2 ^ 32 →
      s.nextSequence - s.startSequence < (bs.maxMessageCount : Int) →
      ((∀ b ∈ batches, b.length ≤ bs.maxMessageCount) ∧
       s5.nextSequence - s5.startSequence < (bs.maxMessageCount : Int))) := by
  obtain ⟨hinv, hglue, hcov, hgap⟩ := hR
  obtain ⟨hi0, hi1, hi2, hi3⟩ := hinv
  simp only [Scheduler.Schedule] at h
  generalize hgen : (parse txID).1 = t at h htn ht0 ⊢
  have hpush2 := @mapFind_append_single _ _ msg htn
  have htge : s.nextSequence ≤ t := by
    by_contra hlt
    have := hcov t ht0 (by omega)
    rw [htn] at this
    exact absurd this (by simp)
  obtain ⟨s0, hs0⟩ : ∃ s0 : Scheduler,
      s0 = { s with envelopes := mapInsert s.envelopes t msg } := ⟨_, rfl⟩
  simp only [← hs0] at h
  have hs0s : s0.startSequence = s.startSequence := by rw [hs0]
  have hs0n : s0.nextSequence = s.nextSequence := by rw [hs0]
  have hs0e : s0.envelopes = mapInsert s.envelopes t msg := by rw [hs0]
  have hs0b : s0.batchSize = s.batchSize := by rw [hs0]
  have hins : ∀ k, mapFind s0.envelopes k =
      if t = k then some msg else mapFind s.envelopes k := by
    intro k
    rw [hs0e]
    exact mapFind_mapInsert _ _ _ _
  have hinv0 : StateInv s0 := by
    refine ⟨by omega, by omega, ?_, by rw [hs0b]; exact hi3⟩
    intro k hk
    rw [mem_intRange] at hk
    rw [hins k]
    split
    · rfl
    · exact hi2 k (by rw [mem_intRange]; omega)
  have hs0glue : ∀ k, s.startSequence ≤ k →
      mapFind s0.envelopes k = mapFind (pushed ++ [(t, msg)]) k := by
    intro k hk
    rw [hins k, hpush2 k]
    by_cases hkt : k = t
    · subst hkt
      rw [if_pos rfl, if_pos rfl]
    · rw [if_neg (fun hh => hkt hh.symm), if_neg hkt, hglue k, if_neg (by omega)]
  split at h
  · rename_i hteq
    -- the pushed sequence is the next expected one: the drain runs
    split at h
    · exact Option.noConfusion h
    · rename_i s4x outx trx hloop
      simp only [Option.some.injEq, Prod.mk.injEq] at h
      obtain ⟨h1, h2, h3, h4⟩ := h
      rw [← h1, ← h3, ← h4]
      obtain ⟨nb, ntr, hout, htr, hD⟩ :=
        scheduleLoop_spec _ _ [] [] _ _ _ hinv0 hloop
      obtain ⟨d1, d2, d3, d4, d5, d6, d7, d8, d9⟩ := hD
      obtain ⟨q0, q1, q2, q3⟩ := d1
      rw [List.nil_append] at hout
      rw [List.nil_append] at htr
      subst hout
      subst htr
      have hpresIns : ∀ k, s.startSequence ≤ k → k < s4x.startSequence →
          (mapFind s0.envelopes k).isSome := by
        intro k hk1 hk2
        by_cases hkn : k < s.nextSequence
        · rw [hins k]
          split
          · rfl
          · exact hi2 k (by rw [mem_intRange]; omega)
        · exact d6 k (by omega) (by omega)
      refine ⟨⟨⟨q0, q1, q2, q3⟩, ?_, ?_, d4⟩, by omega, by omega, ?_, ?_, ?_, ?_⟩
      · intro k
        rw [d5 k]
        by_cases c1 : s0.startSequence ≤ k ∧ k < s4x.startSequence
        · rw [if_pos c1, if_pos (by omega)]
        · rw [if_neg c1]
          by_cases c2 : k < s.startSequence
          · rw [if_pos (show k < s4x.startSequence by omega), hins k,
              if_neg (by omega), hglue k, if_pos c2]
          · rw [if_neg (show ¬ k < s4x.startSequence by omega), hs0glue k (by omega)]
      · intro k hk1 hk2
        by_cases hkn : k < s.nextSequence
        · have := hcov k hk1 hkn
          rw [hpush2 k]
          split
          · rfl
          · exact this
        · have hk3 : (mapFind s0.envelopes k).isSome :=
            d6 k (by omega) (by omega)
          rw [hs0glue k (by omega)] at hk3
          exact hk3
      · intro k hk1 hk2
        have := hpresIns k hk1 hk2
        rw [hs0glue k hk1] at this
        exact this
      · rw [d7]
        have hw : window s0.envelopes s0.startSequence s4x.startSequence =
            window (pushed ++ [(t, msg)]) s.startSequence s4x.startSequence := by
          rw [hs0s]
          apply window_congr
          intro k hk1 hk2
          exact hs0glue k hk1
        rw [hw]
      · rw [d8, hs0n]
      · intro hm1 hm2 hcnt
        exact d9 hm1 hm2 (by omega)
  · rename_i htne
    -- out of order arrival: stored, nothing released
    simp only [Option.some.injEq, Prod.mk.injEq] at h
    obtain ⟨h1, h2, h3, h4⟩ := h
    rw [← h1, ← h3, ← h4]
    have htgt : s.nextSequence < t := by
      omega
    refine ⟨⟨hinv0, ?_, ?_, ?_⟩, by omega, by omega, ?_, ?_, ?_, ?_⟩
    · intro k
      rw [hins k, hpush2 k]
      by_cases hkt : k = t
      · subst hkt
        rw [if_pos rfl, if_pos rfl, if_neg (by omega)]
      · rw [if_neg (fun hh => hkt hh.symm), if_neg hkt, hglue k, hs0s]
    · intro k hk1 hk2
      rw [hs0n] at hk2
      have := hcov k hk1 hk2
      rw [hpush2 k]
      split
      · rfl
      · exact this
    · rw [hins _, hs0n, if_neg (by omega)]
      exact hgap
    · intro k hk1 hk2
      rw [hs0s] at hk2
      omega
    · rw [hs0s, window_eq_nil (le_refl _)]
      rfl
    · rw [hs0n, intRange_eq_nil (le_refl _)]
    · intro hm1 hm2 hcnt
      refine ⟨by intro b hb; simp at hb, ?_⟩
      rw [hs0s, hs0n]
      exact hcnt

theorem scheduleRun_spec {parse : ParseFn} {bs : BatchSize} :
    ∀ (pushes : List (Envelope × String)) (s : Scheduler) (pushed : EnvMap)
      (s5 : Scheduler) (outB : List (List Envelope)) (outTr : List Int),
      RunInv pushed s →
      (pushSeqs parse pushes).Nodup →
      (∀ q ∈ pushSeqs parse pushes, 0 ≤ q ∧ mapFind pushed q = none) →
      scheduleRun parse bs s pushes = some (s5, outB, outTr) →
      RunInv (pushed ++ pushedOf parse pushes) s5 ∧
      s.startSequence ≤ s5.startSequence ∧
      s.nextSequence ≤ s5.nextSequence ∧
      (∀ k, s.startSequence ≤ k → k < s5.startSequence →
        (mapFind (pushed ++ pushedOf parse pushes) k).isSome) ∧
      outB.flatten =
        window (pushed ++ pushedOf parse pushes) s.startSequence s5.startSequence ∧
      outTr = intRange s.nextSequence s5.nextSequence := by
  intro pushes
  induction pushes with
  | nil =>
    intro s pushed s5 outB outTr hR hnd hfresh h
    simp only [scheduleRun, Option.some.injEq, Prod.mk.injEq] at h
    obtain ⟨h1, h2, h3⟩ := h
    subst h1
    subst h2
    subst h3
    rw [show pushedOf parse [] = [] from rfl, List.append_nil]
    refine ⟨hR, le_refl _, le_refl _, ?_, ?_, ?_⟩
    · intro k hk1 hk2
      omega
    · rw [window_eq_nil (le_refl _)]
      rfl
    · rw [intRange_eq_nil (le_refl _)]
  | cons p rest ih =>
    intro s pushed s5 outB outTr hR hnd hfresh h
    obtain ⟨msg, txID⟩ := p
    simp only [scheduleRun] at h
    split at h
    · exact Option.noConfusion h
    · rename_i batches pending s1 trace heq
      split at h
      · exact Option.noConfusion h
      · rename_i s5x moreB moreTr hrest
        simp only [Option.some.injEq, Prod.mk.injEq] at h
        obtain ⟨h1, h2, h3⟩ := h
        rw [← h1, ← h2, ← h3]
        simp only [pushSeqs, List.map_cons, List.nodup_cons] at hnd
        obtain ⟨htnotin, hndrest⟩ := hnd
        obtain ⟨ht0, htn⟩ := hfresh (parse txID).1 (by simp [pushSeqs])
        have hC := Schedule_spec hR ht0 htn heq
        obtain ⟨c1, c2, c3, c4, c5, c6, c7⟩ := hC
        have hmem : ∀ q ∈ pushSeqs parse rest,
            q ∈ pushSeqs parse ((msg, txID) :: rest) := by
          intro q hq
          simp only [pushSeqs, List.map_cons, List.mem_cons]
          right
          exact hq
        have hfresh2 : ∀ q ∈ pushSeqs parse rest, 0 ≤ q ∧
            mapFind (pushed ++ [((parse txID).1, msg)]) q = none := by
          intro q hq
          obtain ⟨hq0, hqn⟩ := hfresh q (hmem q hq)
          refine ⟨hq0, ?_⟩
          rw [mapFind_append_single htn q, if_neg ?_]
          · exact hqn
          · intro hh
            exact htnotin (hh ▸ hq)
        have hIH := ih s1 (pushed ++ [((parse txID).1, msg)]) s5x moreB moreTr
          c1 hndrest hfresh2 hrest
        obtain ⟨i1, i2, i3, i4, i5, i6⟩ := hIH
        have hassoc : pushed ++ pushedOf parse ((msg, txID) :: rest) =
            (pushed ++ [((parse txID).1, msg)]) ++ pushedOf parse rest := by
          simp [pushedOf]
        rw [hassoc]
        refine ⟨i1, by omega, by omega, ?_, ?_, ?_⟩
        · intro k hk1 hk2
          by_cases hks : k < s1.startSequence
          · have hp := c4 k hk1 hks
            rw [Option.isSome_iff_exists] at hp
            obtain ⟨v, hv⟩ := hp
            rw [mapFind_append_left _ hv]
            rfl
          · exact i4 k (by omega) hk2
        · rw [List.flatten_append]
          have hw1 : batches.flatten =
              window ((pushed ++ [((parse txID).1, msg)]) ++ pushedOf parse rest)
                s.startSequence s1.startSequence := by
            rw [c5]
            apply window_congr
            intro k hk1 hk2
            have hp := c4 k hk1 hk2
            rw [Option.isSome_iff_exists] at hp
            obtain ⟨v, hv⟩ := hp
            rw [hv, mapFind_append_left _ hv]
          rw [hw1, i5, window_append c2 i2]
        · rw [c6, i6, intRange_append c3 i3]

theorem Schedule_count_spec {parse : ParseFn} {bs : BatchSize} {s s5 : Scheduler}
    {msg : Envelope} {txID : String} {batches : List (List Envelope)}
    {pending : Bool} {trace : List Int}
    (hinv : StateInv s)
    (h : s.Schedule msg txID bs parse = some (batches, pending, s5, trace)) :
    StateInv s5 ∧
    (1 ≤ bs.maxMessageCount → (bs.maxMessageCount : Int) < 2 ^ 32 →
      s.nextSequence - s.startSequence < (bs.maxMessageCount : Int) →
      ((∀ b ∈ batches, b.length ≤ bs.maxMessageCount) ∧
       s5.nextSequence - s5.startSequence < (bs.maxMessageCount : Int))) := by
  obtain ⟨hi0, hi1, hi2, hi3⟩ := hinv
  simp only [Scheduler.Schedule] at h
  obtain ⟨s0, hs0⟩ : ∃ s0 : Scheduler,
      s0 = { s with envelopes := mapInsert s.envelopes (parse txID).1 msg } := ⟨_, rfl⟩
  simp only [← hs0] at h
  have hs0s : s0.startSequence = s.startSequence := by rw [hs0]
  have hs0n : s0.nextSequence = s.nextSequence := by rw [hs0]
  have hs0e : s0.envelopes = mapInsert s.envelopes (parse txID).1 msg := by rw [hs0]
  have hs0b : s0.batchSize = s.batchSize := by rw [hs0]
  have hinv0 : StateInv s0 := by
    refine ⟨by omega, by omega, ?_, by rw [hs0b]; exact hi3⟩
    intro k hk
    rw [mem_intRange] at hk
    rw [hs0e, mapFind_mapInsert]
    split
    · rfl
    · exact hi2 k (by rw [mem_intRange]; omega)
  split at h
  · rename_i hteq
    split at h
    · exact Option.noConfusion h
    · rename_i s4x outx trx hloop
      simp only [Option.some.injEq, Prod.mk.injEq] at h
      obtain ⟨h1, h2, h3, h4⟩ := h
      rw [← h1, ← h3]
      obtain ⟨nb, ntr, hout, htr, hD⟩ :=
        scheduleLoop_spec _ _ [] [] _ _ _ hinv0 hloop
      obtain ⟨d1, d2, d3, d4, d5, d6, d7, d8, d9⟩ := hD
      rw [List.nil_append] at hout
      subst hout
      refine ⟨d1, ?_⟩
      intro hm1 hm2 hcnt
      exact d9 hm1 hm2 (by omega)
  · rename_i htne
    simp only [Option.some.injEq, Prod.mk.injEq] at h
    obtain ⟨h1, h2, h3, h4⟩ := h
    rw [← h1, ← h3]
    refine ⟨hinv0, ?_⟩
    intro hm1 hm2 hcnt
    refine ⟨by intro b hb; simp at hb, by omega⟩

theorem scheduleRun_count_spec {parse : ParseFn} {bs : BatchSize} :
    ∀ (pushes : List (Envelope × String)) (s s5 : Scheduler)
      (outB : List (List Envelope)) (outTr : List Int),
      StateInv s →
      scheduleRun parse bs s pushes = some (s5, outB, outTr) →
      1 ≤ bs.maxMessageCount → (bs.maxMessageCount : Int) < 2 ^ 32 →
      s.nextSequence - s.startSequence < (bs.maxMessageCount : Int) →
      ∀ b ∈ outB, b.length ≤ bs.maxMessageCount := by
  intro pushes
  induction pushes with
  | nil =>
    intro s s5 outB outTr hinv h hm1 hm2 hcnt b hb
    simp only [scheduleRun, Option.some.injEq, Prod.mk.injEq] at h
    obtain ⟨h1, h2, h3⟩ := h
    rw [← h2] at hb
    simp at hb
  | cons p rest ih =>
    intro s s5 outB outTr hinv h hm1 hm2 hcnt b hb
    obtain ⟨msg, txID⟩ := p
    simp only [scheduleRun] at h
    split at h
    · exact Option.noConfusion h
    · rename_i batches pending s1 trace heq
      split at h
      · exact Option.noConfusion h
      · rename_i s5x moreB moreTr hrest
        simp only [Option.some.injEq, Prod.mk.injEq] at h
        obtain ⟨h1, h2, h3⟩ := h
        rw [← h2] at hb
        obtain ⟨k1, k2⟩ := Schedule_count_spec hinv heq
        obtain ⟨blen, bcnt⟩ := k2 hm1 hm2 hcnt
        rw [List.mem_append] at hb
        rcases hb with hb | hb
        · exact blen b hb
        · exact ih s1 s5x moreB moreTr k1 hrest hm1 hm2 bcnt b hb

/- Invariants and analysis of the ProposalOrderer (ordered dispatcher). -/

/-- Sequence numbers of a list of wrappers, in list order. -/
def poSeqs (l : List UnpackedProposalWrapper) : List Int :=
  l.map (fun u => u.Sequence)

theorem pqPopMin_spec :
    ∀ (q : List UnpackedProposalWrapper) (m : UnpackedProposalWrapper)
      (rest : List UnpackedProposalWrapper),
      pqPopMin q = some (m, rest) →
      (m :: rest).Perm q ∧ (∀ x ∈ q, m.Sequence ≤ x.Sequence) ∧
      rest.length + 1 = q.length := by
  intro q
  induction q with
  | nil =>
    intro m rest h
    exact Option.noConfusion h
  | cons x xs ih =>
    intro m rest h
    simp only [pqPopMin] at h
    cases hxs : pqPopMin xs with
    | none =>
      rw [hxs] at h
      simp only [Option.some.injEq, Prod.mk.injEq] at h
      obtain ⟨h1, h2⟩ := h
      subst h1
      subst h2
      have hxsnil : xs = [] := by
        cases xs with
        | nil => rfl
        | cons y ys =>
          simp only [pqPopMin] at hxs
          cases hys : pqPopMin ys with
          | none =>
            simp only [hys] at hxs
            exact Option.noConfusion hxs
          | some p =>
            obtain ⟨a, b⟩ := p
            simp only [hys] at hxs
            split at hxs <;> exact Option.noConfusion hxs
      subst hxsnil
      refine ⟨List.Perm.refl _, ?_, rfl⟩
      intro y hy
      simp only [List.mem_singleton] at hy
      subst hy
      exact le_refl _
    | some p =>
      obtain ⟨m2, rest2⟩ := p
      simp only [hxs] at h
      obtain ⟨hperm2, hmin2, hlen2⟩ := ih m2 rest2 hxs
      split at h
      · rename_i hle
        simp only [Option.some.injEq, Prod.mk.injEq] at h
        obtain ⟨h1, h2⟩ := h
        subst h1
        subst h2
        refine ⟨List.Perm.refl _, ?_, rfl⟩
        intro y hy
        rcases List.mem_cons.mp hy with rfl | hy
        · exact le_refl _
        · exact le_trans hle (hmin2 y hy)
      · rename_i hgt
        simp only [Option.some.injEq, Prod.mk.injEq] at h
        obtain ⟨h1, h2⟩ := h
        subst h1
        subst h2
        refine ⟨?_, ?_, ?_⟩
        · exact List.Perm.trans (List.Perm.swap x m2 rest2) (hperm2.cons x)
        · intro y hy
          rcases List.mem_cons.mp hy with rfl | hy
          · omega
          · exact hmin2 y hy
        · simp only [List.length_cons]
          omega

/-- Invariant of the dispatcher relative to the multiset pushed of all
wrappers pushed so far: the process channel content is exactly the released
prefix, in sequence order, and together with the queue it is a permutation
of everything pushed (nothing is dropped or duplicated). -/
def POInv (pushed : List UnpackedProposalWrapper) (po : ProposalOrderer) : Prop :=
  0 ≤ po.nextSequence ∧
  poSeqs po.processCh = intRange 0 po.nextSequence ∧
  (po.queue ++ po.processCh).Perm pushed

theorem POInv_init : POInv [] NewProposalOrderer := by
  refine ⟨le_refl _, ?_, List.Perm.refl _⟩
  show poSeqs [] = intRange 0 0
  rw [intRange_eq_nil (le_refl _)]
  rfl

theorem sendDrain_spec :
    ∀ (fuel : Nat) (po : ProposalOrderer) (pushed : List UnpackedProposalWrapper),
      POInv pushed po →
      POInv pushed (sendDrain fuel po) ∧
      po.nextSequence ≤ (sendDrain fuel po).nextSequence ∧
      (po.queue.length ≤ fuel →
        ∀ m rest, pqPopMin (sendDrain fuel po).queue = some (m, rest) →
          ¬ m.Sequence = (sendDrain fuel po).nextSequence) := by
  intro fuel
  induction fuel with
  | zero =>
    intro po pushed hI
    simp only [sendDrain]
    refine ⟨hI, le_refl _, ?_⟩
    intro hlen m rest hpop
    have hq : po.queue = [] := List.length_eq_zero.mp (by omega)
    rw [hq] at hpop
    exact Option.noConfusion hpop
  | succ fuel ih =>
    intro po pushed hI
    obtain ⟨j0, j1, j2⟩ := hI
    cases hpop : pqPopMin po.queue with
    | none =>
      have hstep : sendDrain (fuel + 1) po = po := by
        simp only [sendDrain, hpop]
      rw [hstep]
      refine ⟨⟨j0, j1, j2⟩, le_refl _, ?_⟩
      intro hlen m rest hpop2
      rw [hpop] at hpop2
      exact Option.noConfusion hpop2
    | some p =>
      obtain ⟨top, rest⟩ := p
      obtain ⟨hperm, hmin, hlen⟩ := pqPopMin_spec _ _ _ hpop
      by_cases htop : top.Sequence = po.nextSequence
      · have hstep : sendDrain (fuel + 1) po =
            sendDrain fuel
              { nextSequence := po.nextSequence + 1,
                queue := rest,
                processCh := po.processCh ++ [top] } := by
          simp only [sendDrain, hpop]
          rw [if_pos htop]
        rw [hstep]
        have hI2 : POInv pushed
            { nextSequence := po.nextSequence + 1,
              queue := rest,
              processCh := po.processCh ++ [top] } := by
          refine ⟨?_, ?_, ?_⟩
          · show (0 : Int) ≤ po.nextSequence + 1
            omega
          · show poSeqs (po.processCh ++ [top]) = intRange 0 (po.nextSequence + 1)
            rw [intRange_snoc j0, ← j1, ← htop]
            simp [poSeqs]
          · show (rest ++ (po.processCh ++ [top])).Perm pushed
            rw [← List.append_assoc]
            refine List.Perm.trans (List.perm_append_singleton _ _) ?_
            refine List.Perm.trans ?_ j2
            exact hperm.append_right _
        obtain ⟨r1, r2, r3⟩ := ih _ pushed hI2
        refine ⟨r1, le_trans (show po.nextSequence ≤ po.nextSequence + 1 by omega) r2, ?_⟩
        intro hlen2 m rest2 hpop2
        apply r3 ?_ m rest2 hpop2
        show rest.length ≤ fuel
        omega
      · have hstep : sendDrain (fuel + 1) po = po := by
          simp only [sendDrain, hpop]
          rw [if_neg htop]
        rw [hstep]
        refine ⟨⟨j0, j1, j2⟩, le_refl _, ?_⟩
        intro hlen2 m rest2 hpop2
        rw [hpop] at hpop2
        simp only [Option.some.injEq, Prod.mk.injEq] at hpop2
        obtain ⟨hm, hr⟩ := hpop2
        rw [← hm]
        exact htop

theorem trySendStep_spec {po : ProposalOrderer} {pushed : List UnpackedProposalWrapper}
    (hI : POInv pushed po) :
    POInv pushed po.trySendStep ∧
    po.nextSequence ≤ po.trySendStep.nextSequence ∧
    (∀ m rest, pqPopMin po.trySendStep.queue = some (m, rest) →
      ¬ m.Sequence = po.trySendStep.nextSequence) := by
  obtain ⟨r1, r2, r3⟩ := sendDrain_spec po.queue.length po pushed hI
  exact ⟨r1, r2, r3 (le_refl _)⟩

theorem poRun_spec :
    ∀ (ops : List POOp) (po : ProposalOrderer) (pushed : List UnpackedProposalWrapper),
      POInv pushed po →
      POInv (pushed ++ opsPushes ops) (poRun po ops) ∧
      po.nextSequence ≤ (poRun po ops).nextSequence := by
  intro ops
  induction ops with
  | nil =>
    intro po pushed hI
    simp only [poRun, opsPushes, List.append_nil]
    exact ⟨hI, le_refl _⟩
  | cons op rest ih =>
    intro po pushed hI
    cases op with
    | push upw =>
      obtain ⟨j0, j1, j2⟩ := hI
      have hI2 : POInv (pushed ++ [upw]) (po.Push upw) := by
        refine ⟨j0, j1, ?_⟩
        show ((po.queue ++ [upw]) ++ po.processCh).Perm (pushed ++ [upw])
        rw [List.append_assoc]
        refine List.Perm.trans (List.Perm.append_left _ List.perm_append_comm) ?_
        rw [← List.append_assoc]
        exact j2.append_right _
      obtain ⟨r1, r2⟩ := ih (po.Push upw) (pushed ++ [upw]) hI2
      refine ⟨?_, ?_⟩
      · rw [show pushed ++ opsPushes (POOp.push upw :: rest) =
            (pushed ++ [upw]) ++ opsPushes rest by simp [opsPushes]]
        exact r1
      · exact le_trans (le_refl _) r2
    | trySend =>
      obtain ⟨r1, r2, r3⟩ := trySendStep_spec hI
      obtain ⟨q1, q2⟩ := ih po.trySendStep pushed r1
      refine ⟨?_, le_trans r2 q2⟩
      rw [show opsPushes (POOp.trySend :: rest) = opsPushes rest from rfl]
      exact q1

theorem pqPopMin_exists :
    ∀ (q : List UnpackedProposalWrapper), q ≠ [] →
      ∃ m rest, pqPopMin q = some (m, rest) := by
  intro q hq
  cases q with
  | nil => exact absurd rfl hq
  | cons x xs =>
    simp only [pqPopMin]
    cases pqPopMin xs with
    | none => exact ⟨x, [], rfl⟩
    | some p =>
      obtain ⟨m2, rest2⟩ := p
      by_cases hc : x.Sequence ≤ m2.Sequence
      · refine ⟨x, xs, ?_⟩
        show (if x.Sequence ≤ m2.Sequence then some (x, xs)
          else some (m2, x :: rest2)) = some (x, xs)
        rw [if_pos hc]
      · refine ⟨m2, x :: rest2, ?_⟩
        show (if x.Sequence ≤ m2.Sequence then some (x, xs)
          else some (m2, x :: rest2)) = some (m2, x :: rest2)
        rw [if_neg hc]

/-- Main dispatcher ordering lemma: after any interleaving of pushes and
worker drains whose pushed sequences are a permutation of 0..N-1, one final
drain leaves the process channel holding exactly the sequences 0..N-1 in
increasing order. -/
theorem dispatchOrder {ops : List POOp} {N : Nat}
    (hperm : (poSeqs (opsPushes ops)).Perm (intRange 0 (N : Int))) :
    poSeqs ((poRun NewProposalOrderer ops).trySendStep).processCh =
      intRange 0 (N : Int) := by
  obtain ⟨hI1, hm1⟩ := poRun_spec ops NewProposalOrderer [] POInv_init
  rw [List.nil_append] at hI1
  obtain ⟨hI2, hm2, hdr⟩ := trySendStep_spec hI1
  obtain ⟨k0, k1, k2⟩ := hI2
  generalize hpo : (poRun NewProposalOrderer ops).trySendStep = po2 at k0 k1 k2 hdr ⊢
  have hseq : (poSeqs (po2.queue ++ po2.processCh)).Perm (intRange 0 (N : Int)) :=
    (k2.map _).trans hperm
  have hnd : (poSeqs po2.queue ++ poSeqs po2.processCh).Nodup := by
    have h1 := (hseq.nodup_iff).mpr (intRange_nodup _ _)
    simp only [poSeqs, List.map_append] at h1
    simp only [poSeqs]
    exact h1
  have hmem : ∀ x : Int,
      (x ∈ poSeqs po2.queue ∨ x ∈ poSeqs po2.processCh) ↔
        x ∈ intRange 0 (N : Int) := by
    intro x
    rw [← List.mem_append]
    simp only [poSeqs]
    rw [← List.map_append]
    exact hseq.mem_iff
  have hdisj : ∀ x, x ∈ poSeqs po2.queue → x ∈ poSeqs po2.processCh → False := by
    rw [List.nodup_append] at hnd
    intro x hx1 hx2
    exact hnd.2.2 hx1 hx2
  have hle : po2.nextSequence ≤ (N : Int) := by
    by_contra hgt
    have hNin : (N : Int) ∈ poSeqs po2.processCh := by
      rw [k1, mem_intRange]
      refine ⟨by omega, by omega⟩
    have hNr := (hmem (N : Int)).mp (Or.inr hNin)
    rw [mem_intRange] at hNr
    omega
  have hge : (N : Int) ≤ po2.nextSequence := by
    by_contra hlt
    have hin : po2.nextSequence ∈ intRange 0 (N : Int) := by
      rw [mem_intRange]
      omega
    rcases (hmem po2.nextSequence).mpr hin with hq | hp
    · simp only [poSeqs, List.mem_map] at hq
      obtain ⟨u, hu1, hu2⟩ := hq
      have hqne : po2.queue ≠ [] := by
        intro hnil
        rw [hnil] at hu1
        exact absurd hu1 (List.not_mem_nil u)
      obtain ⟨m, rest, hpop⟩ := pqPopMin_exists po2.queue hqne
      obtain ⟨hpermq, hminq, hlenq⟩ := pqPopMin_spec _ _ _ hpop
      have hmne := hdr m rest hpop
      have hmle : m.Sequence ≤ po2.nextSequence := by
        have := hminq u hu1
        omega
      have hmlt : m.Sequence < po2.nextSequence := by
        rcases lt_or_eq_of_le hmle with hh | hh
        · exact hh
        · exact absurd hh hmne
      have hminq2 : m ∈ po2.queue := hpermq.mem_iff.mp (List.mem_cons_self _ _)
      have hmem_q : m.Sequence ∈ poSeqs po2.queue := by
        simp only [poSeqs, List.mem_map]
        exact ⟨m, hminq2, rfl⟩
      have h0m : (0 : Int) ≤ m.Sequence := by
        have hr := (hmem m.Sequence).mp (Or.inl hmem_q)
        rw [mem_intRange] at hr
        omega
      have hmem_p : m.Sequence ∈ poSeqs po2.processCh := by
        rw [k1, mem_intRange]
        omega
      exact hdisj _ hmem_q hmem_p
    · rw [k1, mem_intRange] at hp
      omega
  rw [k1]
  congr 1
  omega

theorem mapFind_pushedOf (parse : ParseFn) :
    ∀ (ps : List (Envelope × String)) (k : Int),
      (mapFind (pushedOf parse ps) k).isSome ↔ k ∈ pushSeqs parse ps := by
  intro ps
  induction ps with
  | nil =>
    intro k
    simp [pushedOf, pushSeqs, mapFind]
  | cons p rest ih =>
    intro k
    simp only [pushedOf, pushSeqs, List.map_cons, mapFind, List.mem_cons]
    by_cases hk : (parse p.2).1 = k
    · rw [if_pos hk]
      simp only [Option.isSome_some, true_iff]
      exact Or.inl hk.symm
    · rw [if_neg hk]
      rw [show (mapFind (List.map (fun q => ((parse q.2).1, q.1)) rest) k).isSome ↔
          k ∈ pushSeqs parse rest from ih k]
      constructor
      · exact fun hh => Or.inr hh
      · rintro (rfl | hh)
        · exact absurd rfl hk
        · exact hh

/-- Final-state characterization of a run over a permutation of 0..N-1. -/
theorem scheduleRun_perm_final {parse : ParseFn} {bs : BatchSize}
    {pushes : List (Envelope × String)} {N : Nat} {sF : Scheduler}
    {outB : List (List Envelope)} {outTr : List Int}
    (hperm : (pushSeqs parse pushes).Perm (intRange 0 (N : Int)))
    (h : scheduleRun parse bs NewScheduler pushes = some (sF, outB, outTr)) :
    sF.nextSequence = (N : Int) ∧
    RunInv (pushedOf parse pushes) sF ∧
    outB.flatten = window (pushedOf parse pushes) 0 sF.startSequence ∧
    outTr = intRange 0 (N : Int) := by
  have hnd : (pushSeqs parse pushes).Nodup := (hperm.nodup_iff).mpr (intRange_nodup _ _)
  have hfresh : ∀ q ∈ pushSeqs parse pushes, 0 ≤ q ∧ mapFind [] q = none := by
    intro q hq
    have hm := mem_intRange.mp (hperm.mem_iff.mp hq)
    exact ⟨hm.1, rfl⟩
  obtain ⟨r1, r2, r3, r4, r5, r6⟩ :=
    scheduleRun_spec pushes NewScheduler [] sF outB outTr RunInv_init hnd hfresh h
  rw [List.nil_append] at r1 r4 r5
  have hNS : NewScheduler.startSequence = 0 := rfl
  have hNN : NewScheduler.nextSequence = 0 := rfl
  obtain ⟨q1, q2, q3, q4⟩ := r1
  obtain ⟨w0, w1, w2, w3⟩ := q1
  have hgap2 : mapFind (pushedOf parse pushes) sF.nextSequence = none := by
    have hx := q2 sF.nextSequence
    rw [q4, if_neg (by omega)] at hx
    exact hx.symm
  have hnext : sF.nextSequence = (N : Int) := by
    by_contra hne
    rcases lt_or_gt_of_ne hne with hlt | hgt
    · have hmem : sF.nextSequence ∈ intRange 0 (N : Int) := by
        rw [mem_intRange]
        omega
      have hm := (mapFind_pushedOf parse pushes sF.nextSequence).mpr
        (hperm.mem_iff.mpr hmem)
      rw [hgap2] at hm
      exact absurd hm (by simp)
    · have hc := q3 (N : Int) (by omega) (by omega)
      have hc2 := hperm.mem_iff.mp ((mapFind_pushedOf parse pushes (N : Int)).mp hc)
      rw [mem_intRange] at hc2
      omega
  rw [hNS] at r5
  rw [hNN, hnext] at r6
  exact ⟨hnext, ⟨⟨w0, w1, w2, w3⟩, q2, q3, q4⟩, r5, r6⟩

/-- Provenance of envelopes: every element of a batch emitted by one Schedule
call is either a value already in the pending map, the scheduled message, or
the zero value of a map miss, and values in the resulting map come from the
same set. -/
theorem Schedule_elems {parse : ParseFn} {bs : BatchSize} {s s5 : Scheduler}
    {msg : Envelope} {txID : String} {batches : List (List Envelope)}
    {pending : Bool} {trace : List Int}
    (hinv : StateInv s)
    (h : s.Schedule msg txID bs parse = some (batches, pending, s5, trace)) :
    (∀ e, (∃ b, b ∈ batches ∧ e ∈ b) →
      (∃ j, mapFind s.envelopes j = some e) ∨ e = msg ∨ e = nilEnvelope) ∧
    (∀ j e, mapFind s5.envelopes j = some e →
      (∃ i, mapFind s.envelopes i = some e) ∨ e = msg) := by
  obtain ⟨hi0, hi1, hi2, hi3⟩ := hinv
  simp only [Scheduler.Schedule] at h
  obtain ⟨s0, hs0⟩ : ∃ s0 : Scheduler,
      s0 = { s with envelopes := mapInsert s.envelopes (parse txID).1 msg } := ⟨_, rfl⟩
  simp only [← hs0] at h
  have hs0e : s0.envelopes = mapInsert s.envelopes (parse txID).1 msg := by rw [hs0]
  have hs0s : s0.startSequence = s.startSequence := by rw [hs0]
  have hs0n : s0.nextSequence = s.nextSequence := by rw [hs0]
  have hs0b : s0.batchSize = s.batchSize := by rw [hs0]
  have hfind0 : ∀ j e, mapFind s0.envelopes j = some e →
      (∃ i, mapFind s.envelopes i = some e) ∨ e = msg := by
    intro j e hj
    rw [hs0e, mapFind_mapInsert] at hj
    by_cases hc : (parse txID).1 = j
    · rw [if_pos hc] at hj
      right
      exact (Option.some.inj hj).symm
    · rw [if_neg hc] at hj
      exact Or.inl ⟨j, hj⟩
  have hinv0 : StateInv s0 := by
    refine ⟨by omega, by omega, ?_, by rw [hs0b]; exact hi3⟩
    intro k hk
    rw [mem_intRange] at hk
    rw [hs0e, mapFind_mapInsert]
    split
    · rfl
    · exact hi2 k (by rw [mem_intRange]; omega)
  split at h
  · split at h
    · exact Option.noConfusion h
    · rename_i s4x outx trx hloop
      simp only [Option.some.injEq, Prod.mk.injEq] at h
      obtain ⟨h1, h2, h3, h4⟩ := h
      rw [← h1, ← h3]
      obtain ⟨nb, ntr, hout, htr, hD⟩ :=
        scheduleLoop_spec _ _ [] [] _ _ _ hinv0 hloop
      obtain ⟨d1, d2, d3, d4, d5, d6, d7, d8, d9⟩ := hD
      rw [List.nil_append] at hout
      rw [← hout] at d7
      constructor
      · intro e he
        obtain ⟨b, hb1, hb2⟩ := he
        have hfl : e ∈ outx.flatten := List.mem_flatten.mpr ⟨b, hb1, hb2⟩
        rw [d7] at hfl
        simp only [window, List.mem_map] at hfl
        obtain ⟨k, hk1, hk2⟩ := hfl
        cases hfk : mapFind s0.envelopes k with
        | none =>
          rw [hfk] at hk2
          right
          right
          exact hk2.symm
        | some v =>
          rw [hfk] at hk2
          simp only [Option.getD_some] at hk2
          rcases hfind0 k v hfk with hca | hcb
          · obtain ⟨i, hi⟩ := hca
            rw [hk2] at hi
            exact Or.inl ⟨i, hi⟩
          · right
            left
            rw [← hk2, hcb]
      · intro j e hj
        rw [d5 j] at hj
        split at hj
        · exact Option.noConfusion hj
        · exact hfind0 j e hj
  · simp only [Option.some.injEq, Prod.mk.injEq] at h
    obtain ⟨h1, h2, h3, h4⟩ := h
    rw [← h1, ← h3]
    constructor
    · intro e he
      obtain ⟨b, hb1, hb2⟩ := he
      simp at hb1
    · exact hfind0

/-- Run-level provenance: every envelope appearing in an emitted batch was in
the initial pending map, was one of the scheduled messages, or is the zero
value. -/
theorem scheduleRun_elems {parse : ParseFn} {bs : BatchSize} :
    ∀ (pushes : List (Envelope × String)) (s sF : Scheduler)
      (outB : List (List Envelope)) (outTr : List Int),
      StateInv s →
      scheduleRun parse bs s pushes = some (sF, outB, outTr) →
      ∀ e, (∃ b, b ∈ outB ∧ e ∈ b) →
        (∃ j, mapFind s.envelopes j = some e) ∨
        (∃ p, p ∈ pushes ∧ p.1 = e) ∨ e = nilEnvelope := by
  intro pushes
  induction pushes with
  | nil =>
    intro s sF outB outTr hinv h e he
    simp only [scheduleRun, Option.some.injEq, Prod.mk.injEq] at h
    obtain ⟨h1, h2, h3⟩ := h
    rw [← h2] at he
    obtain ⟨b, hb1, hb2⟩ := he
    simp at hb1
  | cons p rest ih =>
    intro s sF outB outTr hinv h e he
    obtain ⟨msg, txID⟩ := p
    simp only [scheduleRun] at h
    split at h
    · exact Option.noConfusion h
    · rename_i batches pending s1 trace heq
      split at h
      · exact Option.noConfusion h
      · rename_i s5x moreB moreTr hrest
        simp only [Option.some.injEq, Prod.mk.injEq] at h
        obtain ⟨h1, h2, h3⟩ := h
        rw [← h2] at he
        obtain ⟨b, hb1, hb2⟩ := he
        obtain ⟨e1, e2⟩ := Schedule_elems hinv heq
        obtain ⟨k1, _⟩ := Schedule_count_spec hinv heq
        rw [List.mem_append] at hb1
        rcases hb1 with hb1 | hb1
        · rcases e1 e ⟨b, hb1, hb2⟩ with hx | hx | hx
          · exact Or.inl hx
          · exact Or.inr (Or.inl ⟨(msg, txID), List.mem_cons_self _ _, hx.symm⟩)
          · exact Or.inr (Or.inr hx)
        · rcases ih s1 s5x moreB moreTr k1 hrest e ⟨b, hb1, hb2⟩ with hx | hx | hx
          · obtain ⟨j, hj⟩ := hx
            rcases e2 j e hj with hy | hy
            · exact Or.inl hy
            · exact Or.inr (Or.inl ⟨(msg, txID), List.mem_cons_self _ _, hy.symm⟩)
          · obtain ⟨q, hq1, hq2⟩ := hx
            exact Or.inr (Or.inl ⟨q, List.mem_cons_of_mem _ hq1, hq2⟩)
          · exact Or.inr (Or.inr hx)

/- Concrete objects used to evaluate the claims on specific inputs. -/

/-- Envelope with n payload bytes. -/
def eBytes (n : Nat) : Envelope := { payload := List.replicate n 0, signature := [] }

/-- Limits with a byte threshold of 100 and a high count limit. -/
def bsA : BatchSize :=
  { maxMessageCount := 10, absoluteMaxBytes := 1000, preferredMaxBytes := 100 }

/-- Limits with a byte threshold of 60 (the exact-threshold scenario). -/
def bsExact : BatchSize :=
  { maxMessageCount := 10, absoluteMaxBytes := 1000, preferredMaxBytes := 60 }

/-- Degenerate limits with a zero count limit. -/
def bsZero : BatchSize :=
  { maxMessageCount := 0, absoluteMaxBytes := 1000, preferredMaxBytes := 100 }

/-- Limits with a count limit of one. -/
def bsOne : BatchSize :=
  { maxMessageCount := 1, absoluteMaxBytes := 1000, preferredMaxBytes := 1000 }

/-- Proposal whose transaction identifier has length one. -/
def upA : UnpackedProposal := { channelHeader := { txId := "a" } }

/-- Proposal whose transaction identifier has length zero. -/
def upB : UnpackedProposal := { channelHeader := { txId := "" } }

/- Claims. -/

/-- C1: for every set of distinct sequence numbers 0..N-1 pushed in any
order, the batch cutter releases items in the order 0,1,...,N-1 (its release
trace is the increasing interval 0..N-1), and the dispatcher, after any
interleaving of pushes and worker drains closed by a final drain, has sent
exactly the sequences 0,1,...,N-1, in that order, to the process channel. -/
theorem c1_order_preservation :
    (∀ (parse : ParseFn) (bs : BatchSize) (pushes : List (Envelope × String))
      (N : Nat) (sF : Scheduler) (outB : List (List Envelope)) (outTr : List Int),
      (pushSeqs parse pushes).Perm (intRange 0 (N : Int)) →
      scheduleRun parse bs NewScheduler pushes = some (sF, outB, outTr) →
      outTr = intRange 0 (N : Int)) ∧
    (∀ (ops : List POOp) (N : Nat),
      (poSeqs (opsPushes ops)).Perm (intRange 0 (N : Int)) →
      poSeqs ((poRun NewProposalOrderer ops).trySendStep).processCh =
        intRange 0 (N : Int)) := by
  constructor
  · intro parse bs pushes N sF outB outTr hperm hrun
    exact (scheduleRun_perm_final hperm hrun).2.2.2
  · intro ops N hperm
    exact dispatchOrder hperm

theorem c1_order_preservation_witness :
    ((pushSeqs lenParse [(eBytes 1, "a"), (eBytes 2, "")]).Perm
      (intRange 0 ((2 : Nat) : Int))) ∧
    [0, 1] = intRange 0 ((2 : Nat) : Int) ∧
    poSeqs ((poRun NewProposalOrderer
        [POOp.push ⟨upA, 1⟩, POOp.push ⟨upB, 0⟩, POOp.trySend]).trySendStep).processCh =
      intRange 0 ((2 : Nat) : Int) := by
  refine ⟨by decide, ?_, ?_⟩
  · exact c1_order_preservation.1 lenParse bsA [(eBytes 1, "a"), (eBytes 2, "")] 2
      { envelopes := [(0, eBytes 2), (1, eBytes 1)],
        startSequence := 0, nextSequence := 2, batchSize := 4 }
      [] [0, 1] (by decide) rfl
  · exact c1_order_preservation.2
      [POOp.push ⟨upA, 1⟩, POOp.push ⟨upB, 0⟩, POOp.trySend] 2 (by decide)

/-- C2: for every run of the cutter over distinct dense sequence numbers
0..N-1, the drain reached N, the pending map holds exactly the keys from the
start boundary up to N, and the concatenation of all emitted batches
followed by the still-buffered window equals all items ever scheduled, in
sequence order, one item per sequence (none duplicated, none dropped). -/
theorem c2_completeness :
    ∀ (parse : ParseFn) (bs : BatchSize) (pushes : List (Envelope × String))
      (N : Nat) (sF : Scheduler) (outB : List (List Envelope)) (outTr : List Int),
      (pushSeqs parse pushes).Perm (intRange 0 (N : Int)) →
      scheduleRun parse bs NewScheduler pushes = some (sF, outB, outTr) →
      sF.nextSequence = (N : Int) ∧
      (∀ k, (mapFind sF.envelopes k).isSome ↔
        (sF.startSequence ≤ k ∧ k < (N : Int))) ∧
      outB.flatten ++ window sF.envelopes sF.startSequence (N : Int) =
        window (pushedOf parse pushes) 0 (N : Int) := by
  intro parse bs pushes N sF outB outTr hperm hrun
  obtain ⟨hN, hR, hFl, hTr⟩ := scheduleRun_perm_final hperm hrun
  obtain ⟨⟨w0, w1, w2, w3⟩, g2, g3, g4⟩ := hR
  refine ⟨hN, ?_, ?_⟩
  · intro k
    rw [g2 k]
    by_cases hk : k < sF.startSequence
    · rw [if_pos hk]
      constructor
      · intro hh
        simp at hh
      · intro hh
        exact absurd hh.1 (by omega)
    · rw [if_neg hk]
      rw [mapFind_pushedOf parse pushes k, hperm.mem_iff, mem_intRange]
      constructor
      · intro hh
        exact ⟨by omega, hh.2⟩
      · intro hh
        exact ⟨by omega, hh.2⟩
  · have hw : window sF.envelopes sF.startSequence (N : Int) =
        window (pushedOf parse pushes) sF.startSequence (N : Int) := by
      apply window_congr
      intro k hk1 hk2
      rw [g2 k, if_neg (by omega)]
    rw [hFl, hw, window_append w0 (by omega)]

theorem c2_completeness_witness :
    ((pushSeqs lenParse [(eBytes 1, "a"), (eBytes 2, "")]).Perm
      (intRange 0 ((2 : Nat) : Int))) ∧
    ({ envelopes := [(0, eBytes 2), (1, eBytes 1)],
       startSequence := 0, nextSequence := 2, batchSize := 4 } : Scheduler).nextSequence =
      ((2 : Nat) : Int) ∧
    ([] : List (List Envelope)).flatten ++
        window [(0, eBytes 2), (1, eBytes 1)] 0 ((2 : Nat) : Int) =
      window (pushedOf lenParse [(eBytes 1, "a"), (eBytes 2, "")]) 0 ((2 : Nat) : Int) := by
  have h := c2_completeness lenParse bsA [(eBytes 1, "a"), (eBytes 2, "")] 2
    { envelopes := [(0, eBytes 2), (1, eBytes 1)],
      startSequence := 0, nextSequence := 2, batchSize := 4 }
    [] [0, 1] (by decide) rfl
  exact ⟨by decide, h.1, h.2.2⟩

/-- C3: the byte bound fails on the code.  Pushing an envelope of 90 bytes
at sequence 1, then one of 20 bytes at sequence 0 (releasing both while
accounting the 20-byte message size for each), then one of 70 bytes at
sequence 2, makes the Scheduler emit a two-item batch whose total byte size
is 110, not below the preferred threshold of 100: the emitted batch neither
stays under preferredMaxBytes nor is an oversized singleton. -/
theorem c3_byte_bound_failure :
    scheduleRun lenParse bsA NewScheduler
        [(eBytes 90, "a"), (eBytes 20, ""), (eBytes 70, "aa")] =
      some ({ envelopes := [(2, eBytes 70)],
              startSequence := 2, nextSequence := 3, batchSize := 70 },
        [[eBytes 20, eBytes 90]], [0, 1, 2]) ∧
    batchTotalBytes [eBytes 20, eBytes 90] = 110 ∧
    bsA.preferredMaxBytes = 100 ∧
    ¬ batchTotalBytes [eBytes 20, eBytes 90] < bsA.preferredMaxBytes ∧
    [eBytes 20, eBytes 90].length ≠ 1 := by
  refine ⟨rfl, by decide, rfl, by decide, by decide⟩

/-- C4 counterexample: with maxMessageCount = 0 the code emits a batch of
one item, which exceeds the count limit, so the bound fails as stated for
that configuration. -/
theorem c4_count_bound_counterexample :
    scheduleRun lenParse bsZero NewScheduler [(eBytes 1, "")] =
      some ({ envelopes := [], startSequence := 1, nextSequence := 1, batchSize := 0 },
        [[eBytes 1]], [0]) ∧
    ¬ [eBytes 1].length ≤ bsZero.maxMessageCount := by
  exact ⟨rfl, by decide⟩

/-- C4 amended: provided the uint32 count limit is at least one, no batch
emitted by any run of Scheduler.Schedule has more than maxMessageCount
items. -/
theorem c4_count_bound_amended :
    ∀ (parse : ParseFn) (bs : BatchSize) (pushes : List (Envelope × String))
      (sF : Scheduler) (outB : List (List Envelope)) (outTr : List Int),
      1 ≤ bs.maxMessageCount → (bs.maxMessageCount : Int) < 2 ^ 32 →
      scheduleRun parse bs NewScheduler pushes = some (sF, outB, outTr) →
      ∀ b ∈ outB, b.length ≤ bs.maxMessageCount := by
  intro parse bs pushes sF outB outTr hm1 hm2 hrun
  have hNS : NewScheduler.startSequence = 0 := rfl
  have hNN : NewScheduler.nextSequence = 0 := rfl
  exact scheduleRun_count_spec pushes NewScheduler sF outB outTr (by decide) hrun
    hm1 hm2 (by omega)

theorem c4_count_bound_amended_witness :
    1 ≤ bsOne.maxMessageCount ∧
    (∀ b ∈ [[eBytes 1]], b.length ≤ bsOne.maxMessageCount) := by
  refine ⟨by decide, ?_⟩
  exact c4_count_bound_amended lenParse bsOne [(eBytes 1, "")]
    { envelopes := [], startSequence := 1, nextSequence := 1, batchSize := 0 }
    [[eBytes 1]] [0] (by decide) (by decide) rfl

/-- C5: the claim that accumulation uses the byte size of each released item
fails on the code.  Pushing an envelope of 90 bytes at sequence 1 and then
one of 20 bytes at sequence 0 releases both items in one drain; the released
items have sizes 20 and 90, yet the accumulated counter ends at 40, the
20-byte size of the message passed to the call counted once per released
item, not 20 + 90 = 110. -/
theorem c5_released_size_failure :
    scheduleRun lenParse bsA NewScheduler [(eBytes 90, "a"), (eBytes 20, "")] =
      some ({ envelopes := [(0, eBytes 20), (1, eBytes 90)],
              startSequence := 0, nextSequence := 2, batchSize := 40 },
        [], [0, 1]) ∧
    messageSizeBytes (eBytes 20) = 20 ∧
    messageSizeBytes (eBytes 90) = 90 ∧
    ({ envelopes := [(0, eBytes 20), (1, eBytes 90)],
       startSequence := 0, nextSequence := 2, batchSize := 40 } : Scheduler).batchSize ≠
      messageSizeBytes (eBytes 20) + messageSizeBytes (eBytes 90) := by
  refine ⟨rfl, by decide, by decide, by decide⟩

theorem stepBytes_equal {bs : BatchSize} {msg : Envelope} {s1 : Scheduler}
    (hlt : s1.startSequence < s1.nextSequence)
    (heq : (s1.batchSize + messageSizeBytes msg) % 2 ^ 32 = bs.preferredMaxBytes) :
    stepBytes bs msg s1 =
      some ({ s1 with
              envelopes := eraseRange s1.envelopes s1.startSequence s1.nextSequence,
              startSequence := s1.nextSequence,
              batchSize := 0 },
        [window s1.envelopes s1.startSequence s1.nextSequence]) := by
  unfold stepBytes
  rw [heq, if_neg (lt_irrefl _), if_neg (lt_irrefl _), Cut_eq_some hlt]

/-- C6: when a released item makes the new accumulated total exactly equal
to preferredMaxBytes, the iteration cuts one batch holding every accumulated
item plus the current one (the window from the start boundary through the
released sequence) and resets the accumulated count to zero, provided the
count limit is positive; with a zero count limit the call panics instead.
In particular, with preferredMaxBytes = 60 and two items of 30 bytes pushed
in order, one batch holding both items is emitted. -/
theorem c6_exact_threshold :
    (∀ (bs : BatchSize) (msg : Envelope) (s : Scheduler),
      0 ≤ s.startSequence → s.startSequence ≤ s.nextSequence →
      (s.batchSize + messageSizeBytes msg) % 2 ^ 32 = bs.preferredMaxBytes →
      (1 ≤ bs.maxMessageCount →
        scheduleStep bs msg s =
          some ({ envelopes := eraseRange s.envelopes s.startSequence (s.nextSequence + 1),
                  startSequence := s.nextSequence + 1,
                  nextSequence := s.nextSequence + 1,
                  batchSize := 0 },
            [window s.envelopes s.startSequence (s.nextSequence + 1)])) ∧
      (bs.maxMessageCount = 0 → scheduleStep bs msg s = none)) ∧
    scheduleRun lenParse bsExact NewScheduler [(eBytes 30, ""), (eBytes 30, "a")] =
      some ({ envelopes := [], startSequence := 2, nextSequence := 2, batchSize := 0 },
        [[eBytes 30, eBytes 30]], [0, 1]) := by
  constructor
  · intro bs msg s h0 h1 heq
    have hB := @stepBytes_equal bs msg { s with nextSequence := s.nextSequence + 1 }
      (show s.startSequence < s.nextSequence + 1 by omega) heq
    constructor
    · intro hm1
      unfold scheduleStep
      rw [hB]
      simp only [stepCount]
      have hcond : ¬ bs.maxMessageCount ≤
          ((s.nextSequence + 1 - (s.nextSequence + 1)) % (2 ^ 32 : Int)).toNat := by
        omega
      rw [if_neg hcond]
    · intro hm0
      unfold scheduleStep
      rw [hB]
      simp only [stepCount]
      have hcond : bs.maxMessageCount ≤
          ((s.nextSequence + 1 - (s.nextSequence + 1)) % (2 ^ 32 : Int)).toNat := by
        omega
      rw [if_pos hcond, Cut_eq_none (le_of_eq rfl)]
  · rfl

theorem c6_exact_threshold_witness :
    (0 : Int) ≤ 0 ∧
    ((30 : Nat) + messageSizeBytes (eBytes 30)) % 2 ^ 32 = bsExact.preferredMaxBytes ∧
    scheduleStep bsExact (eBytes 30)
        { envelopes := [(0, eBytes 30), (1, eBytes 30)],
          startSequence := 0, nextSequence := 1, batchSize := 30 } =
      some ({ envelopes :=
                eraseRange [(0, eBytes 30), (1, eBytes 30)] 0 (1 + 1),
              startSequence := 1 + 1, nextSequence := 1 + 1, batchSize := 0 },
        [window [(0, eBytes 30), (1, eBytes 30)] 0 (1 + 1)]) := by
  refine ⟨by decide, by decide, ?_⟩
  exact ((c6_exact_threshold.1 bsExact (eBytes 30)
    { envelopes := [(0, eBytes 30), (1, eBytes 30)],
      startSequence := 0, nextSequence := 1, batchSize := 30 }
    (by decide) (by decide) (by decide)).1 (by decide))

theorem pushedOf_append (parse : ParseFn) (ps1 ps2 : List (Envelope × String)) :
    pushedOf parse (ps1 ++ ps2) = pushedOf parse ps1 ++ pushedOf parse ps2 := by
  simp [pushedOf]

theorem pushSeqs_append (parse : ParseFn) (ps1 ps2 : List (Envelope × String)) :
    pushSeqs parse (ps1 ++ ps2) = pushSeqs parse ps1 ++ pushSeqs parse ps2 := by
  simp [pushSeqs]

/-- C7 counterexample: after scheduling the single sequence 0 (a distinct,
dense feed), the released item is still stored in the pending map under key
0 while nextExpected is 1, so the pending map holds a key strictly below
nextExpected and the item was not removed at the moment of release. -/
theorem c7_pending_key_counterexample :
    scheduleRun lenParse bsA NewScheduler [(eBytes 1, "")] =
      some ({ envelopes := [(0, eBytes 1)],
              startSequence := 0, nextSequence := 1, batchSize := 1 },
        [], [0]) ∧
    mapFind [(0, eBytes 1)] 0 = some (eBytes 1) ∧
    ¬ (({ envelopes := [(0, eBytes 1)],
          startSequence := 0, nextSequence := 1, batchSize := 1 } : Scheduler).nextSequence
        ≤ 0) := by
  exact ⟨rfl, rfl, by decide⟩

/-- C7 amended: in every reachable state of an engine fed with distinct,
nonnegative sequence numbers, for the batch cutter every key of the pending
map is at least the start boundary (not nextExpected), the start boundary
and next expected sequence never decrease across operations, and each item
leaves the pending map exactly once, at the moment it is cut, appearing
exactly once in the emitted batches; for the dispatcher the invariant holds
as stated: every queued sequence is at least nextExpected, the released
items are exactly the sequences below nextExpected in order, queue plus
released output is a permutation of everything pushed, and nextExpected
never decreases across any further operations. -/
theorem c7_reorder_invariants_amended :
    (∀ (parse : ParseFn) (bs : BatchSize) (ps1 ps2 : List (Envelope × String))
      (s1 : Scheduler) (B1 : List (List Envelope)) (T1 : List Int)
      (s2 : Scheduler) (B2 : List (List Envelope)) (T2 : List Int),
      (pushSeqs parse (ps1 ++ ps2)).Nodup →
      (∀ q ∈ pushSeqs parse (ps1 ++ ps2), 0 ≤ q) →
      scheduleRun parse bs NewScheduler ps1 = some (s1, B1, T1) →
      scheduleRun parse bs s1 ps2 = some (s2, B2, T2) →
      (∀ k, (mapFind s2.envelopes k).isSome → s2.startSequence ≤ k) ∧
      s1.startSequence ≤ s2.startSequence ∧
      s1.nextSequence ≤ s2.nextSequence ∧
      (B1 ++ B2).flatten = window (pushedOf parse (ps1 ++ ps2)) 0 s2.startSequence) ∧
    (∀ ops : List POOp,
      (poSeqs (opsPushes ops)).Nodup →
      (∀ q ∈ poSeqs (opsPushes ops), 0 ≤ q) →
      (∀ u ∈ (poRun NewProposalOrderer ops).queue,
        (poRun NewProposalOrderer ops).nextSequence ≤ u.Sequence) ∧
      poSeqs (poRun NewProposalOrderer ops).processCh =
        intRange 0 (poRun NewProposalOrderer ops).nextSequence ∧
      ((poRun NewProposalOrderer ops).queue ++
        (poRun NewProposalOrderer ops).processCh).Perm (opsPushes ops) ∧
      (∀ ops2 : List POOp,
        (poRun NewProposalOrderer ops).nextSequence ≤
          (poRun (poRun NewProposalOrderer ops) ops2).nextSequence)) := by
  constructor
  · intro parse bs ps1 ps2 s1 B1 T1 s2 B2 T2 hnd hpos h1run h2run
    rw [pushSeqs_append, List.nodup_append] at hnd
    obtain ⟨hnd1, hnd2, hdisj⟩ := hnd
    have hpos1 : ∀ q ∈ pushSeqs parse ps1, 0 ≤ q := by
      intro q hq
      exact hpos q (by rw [pushSeqs_append]; exact List.mem_append_left _ hq)
    have hpos2 : ∀ q ∈ pushSeqs parse ps2, 0 ≤ q := by
      intro q hq
      exact hpos q (by rw [pushSeqs_append]; exact List.mem_append_right _ hq)
    have hfresh1 : ∀ q ∈ pushSeqs parse ps1, 0 ≤ q ∧ mapFind [] q = none :=
      fun q hq => ⟨hpos1 q hq, rfl⟩
    obtain ⟨r1, r2, r3, r4, r5, r6⟩ :=
      scheduleRun_spec ps1 NewScheduler [] s1 B1 T1 RunInv_init hnd1 hfresh1 h1run
    rw [List.nil_append] at r1 r4 r5
    have hfresh2 : ∀ q ∈ pushSeqs parse ps2, 0 ≤ q ∧
        mapFind (pushedOf parse ps1) q = none := by
      intro q hq
      refine ⟨hpos2 q hq, ?_⟩
      cases hfk : mapFind (pushedOf parse ps1) q with
      | none => rfl
      | some v =>
        have hmem : q ∈ pushSeqs parse ps1 := by
          rw [← mapFind_pushedOf parse ps1 q, hfk]
          rfl
        exact absurd hq (hdisj hmem)
    obtain ⟨t1, t2, t3, t4, t5, t6⟩ :=
      scheduleRun_spec ps2 s1 (pushedOf parse ps1) s2 B2 T2 r1 hnd2 hfresh2 h2run
    obtain ⟨⟨v0, v1, v2, v3⟩, g2, g3, g4⟩ := t1
    refine ⟨?_, t2, t3, ?_⟩
    · intro k hk
      by_contra hlt
      have hx := g2 k
      rw [if_pos (by omega)] at hx
      rw [hx] at hk
      exact absurd hk (by simp)
    · rw [List.flatten_append, pushedOf_append]
      have hNS : NewScheduler.startSequence = 0 := rfl
      have hw1 : B1.flatten =
          window (pushedOf parse ps1 ++ pushedOf parse ps2) 0 s1.startSequence := by
        rw [r5, hNS]
        apply window_congr
        intro k hk1 hk2
        have hp := r4 k (by rw [hNS]; omega) hk2
        rw [Option.isSome_iff_exists] at hp
        obtain ⟨v, hv⟩ := hp
        rw [hv, mapFind_append_left _ hv]
      rw [hw1, t5]
      have h0s : (0 : Int) ≤ s1.startSequence := by
        have := r1.1.1
        have hNS2 : NewScheduler.startSequence = 0 := rfl
        omega
      rw [window_append h0s t2]
  · intro ops hnd hpos
    obtain ⟨hI, hmono⟩ := poRun_spec ops NewProposalOrderer [] POInv_init
    rw [List.nil_append] at hI
    have hmono2 : ∀ ops2 : List POOp,
        (poRun NewProposalOrderer ops).nextSequence ≤
          (poRun (poRun NewProposalOrderer ops) ops2).nextSequence := by
      intro ops2
      exact (poRun_spec ops2 (poRun NewProposalOrderer ops) (opsPushes ops) hI).2
    obtain ⟨k0, k1, k2⟩ := hI
    refine ⟨?_, k1, k2, hmono2⟩
    intro u hu
    by_contra hlt
    push_neg at hlt
    have huq : u.Sequence ∈ poSeqs (poRun NewProposalOrderer ops).queue := by
      simp only [poSeqs, List.mem_map]
      exact ⟨u, hu, rfl⟩
    have h0u : (0 : Int) ≤ u.Sequence := by
      apply hpos
      have hmm : u.Sequence ∈ poSeqs ((poRun NewProposalOrderer ops).queue ++
          (poRun NewProposalOrderer ops).processCh) := by
        simp only [poSeqs, List.map_append, List.mem_append]
        simp only [poSeqs] at huq
        exact Or.inl huq
      exact (k2.map (fun w => w.Sequence)).mem_iff.mp hmm
    have hup : u.Sequence ∈ poSeqs (poRun NewProposalOrderer ops).processCh := by
      rw [k1, mem_intRange]
      exact ⟨h0u, hlt⟩
    have hndqp : (poSeqs (poRun NewProposalOrderer ops).queue ++
        poSeqs (poRun NewProposalOrderer ops).processCh).Nodup := by
      simp only [poSeqs] at hnd
      have h1 := ((k2.map (fun w : UnpackedProposalWrapper => w.Sequence)).nodup_iff).mpr hnd
      simp only [List.map_append] at h1
      simp only [poSeqs]
      exact h1
    rw [List.nodup_append] at hndqp
    exact hndqp.2.2 huq hup

theorem c7_reorder_invariants_amended_witness :
    (pushSeqs lenParse ([(eBytes 1, "a")] ++ [(eBytes 2, "")])).Nodup ∧
    ({ envelopes := [(1, eBytes 1)],
       startSequence := 0, nextSequence := 0, batchSize := 0 } : Scheduler).startSequence ≤
      ({ envelopes := [(0, eBytes 2), (1, eBytes 1)],
         startSequence := 0, nextSequence := 2, batchSize := 4 } : Scheduler).startSequence ∧
    ((poRun NewProposalOrderer [POOp.push ⟨upA, 1⟩]).queue ++
      (poRun NewProposalOrderer [POOp.push ⟨upA, 1⟩]).processCh).Perm
      (opsPushes [POOp.push ⟨upA, 1⟩]) ∧
    (poRun NewProposalOrderer [POOp.push ⟨upA, 1⟩]).nextSequence ≤
      (poRun (poRun NewProposalOrderer [POOp.push ⟨upA, 1⟩])
        [POOp.trySend]).nextSequence := by
  refine ⟨by decide, ?_, ?_, ?_⟩
  · exact (c7_reorder_invariants_amended.1 lenParse bsA [(eBytes 1, "a")] [(eBytes 2, "")]
      { envelopes := [(1, eBytes 1)], startSequence := 0, nextSequence := 0, batchSize := 0 }
      [] []
      { envelopes := [(0, eBytes 2), (1, eBytes 1)],
        startSequence := 0, nextSequence := 2, batchSize := 4 }
      [] [0, 1] (by decide) (by decide) rfl rfl).2.1
  · exact (c7_reorder_invariants_amended.2 [POOp.push ⟨upA, 1⟩]
      (by decide) (by decide)).2.2.1
  · exact (c7_reorder_invariants_amended.2 [POOp.push ⟨upA, 1⟩]
      (by decide) (by decide)).2.2.2 [POOp.trySend]

/-- C8: Cut called with a target at or below the current start boundary
panics (modelled as none) and never silently returns an empty batch; with a
target past the boundary it returns exactly the items at the sequences from
the boundary up to the target, in order, and advances the boundary to the
target. -/
theorem c8_cut_contract :
    ∀ (s : Scheduler) (endSeq : Int),
      (endSeq ≤ s.startSequence → s.Cut endSeq = none) ∧
      (s.startSequence < endSeq →
        s.Cut endSeq =
          some (window s.envelopes s.startSequence endSeq,
            { s with envelopes := eraseRange s.envelopes s.startSequence endSeq,
                     startSequence := endSeq }) ∧
        (window s.envelopes s.startSequence endSeq).length =
          (endSeq - s.startSequence).toNat) ∧
      (∀ batch s2, s.Cut endSeq = some (batch, s2) →
        s.startSequence < endSeq ∧ ¬ batch = [] ∧ s2.startSequence = endSeq) := by
  intro s endSeq
  refine ⟨fun h => Cut_eq_none h,
    fun h => ⟨Cut_eq_some h, window_length _ _ _⟩, ?_⟩
  intro batch s2 h
  unfold Scheduler.Cut at h
  split at h
  · exact Option.noConfusion h
  · rename_i hgt
    simp only [Option.some.injEq, Prod.mk.injEq] at h
    obtain ⟨hb, hs⟩ := h
    refine ⟨by omega, ?_, by rw [← hs]⟩
    intro hnil
    rw [← hb] at hnil
    have hlen := window_length s.envelopes s.startSequence endSeq
    rw [hnil] at hlen
    simp only [List.length_nil] at hlen
    omega

theorem c8_cut_contract_witness :
    ((0 : Int) ≤
      ({ envelopes := [(0, eBytes 1)],
         startSequence := 0, nextSequence := 1, batchSize := 1 } : Scheduler).startSequence) ∧
    Scheduler.Cut
        { envelopes := [(0, eBytes 1)],
          startSequence := 0, nextSequence := 1, batchSize := 1 } 0 = none ∧
    Scheduler.Cut
        { envelopes := [(0, eBytes 1)],
          startSequence := 0, nextSequence := 1, batchSize := 1 } 1 =
      some (window [(0, eBytes 1)] 0 1,
        { envelopes := eraseRange [(0, eBytes 1)] 0 1,
          startSequence := 1, nextSequence := 1, batchSize := 1 }) := by
  refine ⟨by decide, ?_, ?_⟩
  · exact (c8_cut_contract
      { envelopes := [(0, eBytes 1)],
        startSequence := 0, nextSequence := 1, batchSize := 1 } 0).1 (by decide)
  · exact ((c8_cut_contract
      { envelopes := [(0, eBytes 1)],
        startSequence := 0, nextSequence := 1, batchSize := 1 } 1).2.1 (by decide)).1

/-- C9: neither the Scheduler nor the wrapper construction can fail or
reject an input over a malformed transaction identifier: Schedule behaves
identically under any two sequence mappings agreeing on the sequence value,
whatever errors they report (the error component is discarded), and the
wrapper construction always uses the sequence value returned beside the
error. -/
theorem c9_parse_error_discarded :
    (∀ (p1 p2 : ParseFn) (s : Scheduler) (msg : Envelope) (txID : String)
      (bs : BatchSize),
      (p1 txID).1 = (p2 txID).1 →
      s.Schedule msg txID bs p1 = s.Schedule msg txID bs p2) ∧
    (∀ (parse : ParseFn) (up : UnpackedProposal),
      (NewUnpackedProposalWrapper parse up).Sequence =
        (parse up.channelHeader.txId).1) := by
  constructor
  · intro p1 p2 s msg txID bs h
    simp only [Scheduler.Schedule, h]
  · intro parse up
    rfl

theorem c9_parse_error_discarded_witness :
    (((fun _ : String => ((7 : Int), some "bad")) "t").1 =
      ((fun _ : String => ((7 : Int), (none : Option String))) "t").1) ∧
    Scheduler.Schedule NewScheduler (eBytes 1) "t" bsA
        (fun _ : String => ((7 : Int), some "bad")) =
      Scheduler.Schedule NewScheduler (eBytes 1) "t" bsA
        (fun _ : String => ((7 : Int), (none : Option String))) ∧
    (NewUnpackedProposalWrapper (fun _ : String => ((7 : Int), some "bad")) upA).Sequence =
      ((fun _ : String => ((7 : Int), some "bad")) upA.channelHeader.txId).1 := by
  refine ⟨rfl, ?_, ?_⟩
  · exact c9_parse_error_discarded.1 (fun _ => ((7 : Int), some "bad"))
      (fun _ => ((7 : Int), none)) NewScheduler (eBytes 1) "t" bsA rfl
  · exact c9_parse_error_discarded.2 (fun _ => ((7 : Int), some "bad")) upA

/-- C10: scheduling a sequence already present in the pending map before its
release silently overwrites the stored envelope: the call returns normally
with no batches and no error variant, the map now holds the new envelope
under that key, and, when the old envelope occurs nowhere else, it never
appears in any batch emitted by any subsequent completing run. -/
theorem c10_duplicate_overwrite :
    ∀ (parse : ParseFn) (bs : BatchSize) (s : Scheduler) (msg vOld : Envelope)
      (txID : String) (k : Int),
      StateInv s →
      k = (parse txID).1 →
      mapFind s.envelopes k = some vOld →
      ¬ k = s.nextSequence →
      s.Schedule msg txID bs parse =
        some ([], decide (0 < (mapInsert s.envelopes k msg).length),
          { s with envelopes := mapInsert s.envelopes k msg }, []) ∧
      mapFind (mapInsert s.envelopes k msg) k = some msg ∧
      (∀ (rest : List (Envelope × String)) (sF : Scheduler)
        (outB : List (List Envelope)) (outTr : List Int),
        (∀ j, ¬ j = k → ¬ mapFind s.envelopes j = some vOld) →
        ¬ vOld = msg →
        ¬ vOld = nilEnvelope →
        (∀ p ∈ rest, ¬ p.1 = vOld) →
        scheduleRun parse bs { s with envelopes := mapInsert s.envelopes k msg } rest =
          some (sF, outB, outTr) →
        ∀ b ∈ outB, ¬ vOld ∈ b) := by
  intro parse bs s msg vOld txID k hinv hk hdup hkne
  subst hk
  refine ⟨?_, ?_, ?_⟩
  · simp only [Scheduler.Schedule]
    rw [if_neg (fun hh => hkne hh.symm)]
  · rw [mapFind_mapInsert, if_pos rfl]
  · intro rest sF outB outTr honly hne hnil hrest hrun b hb hmem
    have hinv0 : StateInv
        { s with envelopes := mapInsert s.envelopes (parse txID).1 msg } := by
      obtain ⟨hi0, hi1, hi2, hi3⟩ := hinv
      refine ⟨hi0, hi1, ?_, hi3⟩
      intro j hj
      rw [mem_intRange] at hj
      dsimp only
      rw [mapFind_mapInsert]
      split
      · rfl
      · have hss : ({ s with envelopes := mapInsert s.envelopes (parse txID).1 msg } :
            Scheduler).startSequence = s.startSequence := rfl
        have hns : ({ s with envelopes := mapInsert s.envelopes (parse txID).1 msg } :
            Scheduler).nextSequence = s.nextSequence := rfl
        exact hi2 j (by rw [mem_intRange]; omega)
    rcases scheduleRun_elems rest _ sF outB outTr hinv0 hrun vOld ⟨b, hb, hmem⟩
      with hx | hx | hx
    · obtain ⟨j, hj⟩ := hx
      dsimp only at hj
      rw [mapFind_mapInsert] at hj
      by_cases hc : (parse txID).1 = j
      · rw [if_pos hc] at hj
        exact hne (Option.some.inj hj).symm
      · rw [if_neg hc] at hj
        exact honly j (fun hh => hc hh.symm) hj
    · obtain ⟨q, hq1, hq2⟩ := hx
      exact hrest q hq1 hq2
    · exact hnil hx

theorem c10_duplicate_overwrite_witness :
    mapFind [(1, eBytes 5)] 1 = some (eBytes 5) ∧
    Scheduler.Schedule
        { envelopes := [(1, eBytes 5)],
          startSequence := 0, nextSequence := 0, batchSize := 0 }
        (eBytes 2) "a" bsOne lenParse =
      some ([], decide (0 < (mapInsert [(1, eBytes 5)] 1 (eBytes 2)).length),
        { envelopes := mapInsert [(1, eBytes 5)] 1 (eBytes 2),
          startSequence := 0, nextSequence := 0, batchSize := 0 }, []) ∧
    mapFind (mapInsert [(1, eBytes 5)] 1 (eBytes 2)) 1 = some (eBytes 2) ∧
    ¬ eBytes 5 ∈ [eBytes 3] := by
  have h := c10_duplicate_overwrite lenParse bsOne
    { envelopes := [(1, eBytes 5)], startSequence := 0, nextSequence := 0, batchSize := 0 }
    (eBytes 2) (eBytes 5) "a" 1 (by decide) (by decide) rfl (by decide)
  refine ⟨rfl, h.1, h.2.1, ?_⟩
  refine h.2.2 [(eBytes 3, "")]
    { envelopes := [], startSequence := 2, nextSequence := 2, batchSize := 0 }
    [[eBytes 3], [eBytes 2]] [0, 1] ?_ (by decide) (by decide) (by decide) rfl
    [eBytes 3] (by decide)
  intro j hj
  simp only [mapFind]
  rw [if_neg (fun hh => hj hh.symm)]
  simp

end Fabric
